import Mathlib

/-!
Shallow embedding of `guessit/guess.py` (the guess merging and
conflict-resolution engine): the `Guess` record (a dict paired with a
per-key confidence dict), the scalar reconcilers `choose_int` and
`choose_string`, and the merge functions `_merge_similar_guesses_nocheck`,
`merge_similar_guesses`, `merge_append_guesses` and `merge_all`.

Modelling conventions:
* values stored under a property are the inductive `Value` (integers,
  strings, lists of values — what the rule engine and the merge code
  produce);
* confidences (Python floats) are rationals, written with `mkRat` in
  concrete inputs;
* Python dicts are association lists with unique keys; `d[k]` on a
  missing key (KeyError), `%`-formatting faults (TypeError), `+` between
  incompatible types (TypeError) and iterating a non-iterable (TypeError)
  are modelled by the explicit result type `Res` below;
* the unbounded recursion of `merge_similar_guesses` is modelled with
  explicit fuel, an `outOfFuel` error marking an execution that no finite
  fuel completes.
-/

/-- A value held by a guess property: an integer, a string, or a list of
values (the append machinery builds lists of scalars). -/
inductive Value where
  | int (n : Int)
  | str (s : String)
  | list (l : List Value)
deriving Repr

mutual
/-- Decidable (Python `==`) equality on values. -/
def Value.decEq : (a b : Value) → Decidable (a = b)
  | .int a, .int b =>
    if h : a = b then .isTrue (congrArg Value.int h)
    else .isFalse (fun hc => h (Value.int.inj hc))
  | .int _, .str _ => .isFalse (fun hc => Value.noConfusion hc)
  | .int _, .list _ => .isFalse (fun hc => Value.noConfusion hc)
  | .str _, .int _ => .isFalse (fun hc => Value.noConfusion hc)
  | .str a, .str b =>
    if h : a = b then .isTrue (congrArg Value.str h)
    else .isFalse (fun hc => h (Value.str.inj hc))
  | .str _, .list _ => .isFalse (fun hc => Value.noConfusion hc)
  | .list _, .int _ => .isFalse (fun hc => Value.noConfusion hc)
  | .list _, .str _ => .isFalse (fun hc => Value.noConfusion hc)
  | .list xs, .list ys =>
    match Value.decEqList xs ys with
    | .isTrue h => .isTrue (congrArg Value.list h)
    | .isFalse h => .isFalse (fun hc => h (Value.list.inj hc))

/-- `Value.decEq` pointwise on lists. -/
def Value.decEqList : (xs ys : List Value) → Decidable (xs = ys)
  | [], [] => .isTrue rfl
  | [], _ :: _ => .isFalse (fun hc => List.noConfusion hc)
  | _ :: _, [] => .isFalse (fun hc => List.noConfusion hc)
  | x :: xs, y :: ys =>
    match Value.decEq x y with
    | .isFalse h => .isFalse (fun hc => by cases hc; exact h rfl)
    | .isTrue h1 =>
      match Value.decEqList xs ys with
      | .isTrue h2 => .isTrue (by rw [h1, h2])
      | .isFalse h2 => .isFalse (fun hc => by cases hc; exact h2 rfl)
end

instance Value.instDecEq : DecidableEq Value := Value.decEq

/-- True on `Value.list`, the unhashable case for Python's `set()`. -/
def Value.isList : Value → Bool
  | .list _ => true
  | _ => false

/-- Lookup in an association list (Python `d[k]`; keys are unique in a
dict, so first match is the match). -/
def lookup {α : Type} : List (String × α) → String → Option α
  | [], _ => none
  | kv :: t, k => if kv.1 = k then some kv.2 else lookup t k

/-- Python `k in d`. -/
def hasKey {α : Type} (l : List (String × α)) (k : String) : Bool :=
  (lookup l k).isSome

/-- Python `d[k] = v`: replace in place if the key exists, else append. -/
def insertKV {α : Type} : List (String × α) → String → α → List (String × α)
  | [], k, v => [(k, v)]
  | kv :: t, k, v => if kv.1 = k then (k, v) :: t else kv :: insertKV t k v

/-- Python `del d[k]`. -/
def eraseKV {α : Type} (l : List (String × α)) (k : String) :
    List (String × α) :=
  l.filter (fun kv => kv.1 != k)

/-- A `Guess` (guess.py:28): a dict from property names to values paired
with the parallel `_confidence` dict from property names to floats. -/
structure Guess where
  data : List (String × Value)
  conf : List (String × Rat)
deriving DecidableEq, Repr

namespace Guess

/-- `Guess.__init__` (guess.py:32-42): store the given entries and give
every initial property the construction-time confidence (the `confidence`
keyword; 0 when it is not supplied — callers pass 0 explicitly here). -/
def ofDict (d : List (String × Value)) (confidence : Rat) : Guess :=
  ⟨d, d.map (fun kv => (kv.1, confidence))⟩

/-- Python `g[k]` / `g.get(k)` on the value dict. -/
def get? (g : Guess) (k : String) : Option Value :=
  lookup g.data k

/-- Python `k in g`. -/
def hasProp (g : Guess) (k : String) : Bool :=
  hasKey g.data k

/-- `Guess.confidence` (guess.py:66-67): `self._confidence[prop]`;
`none` models the KeyError on a key with no confidence entry. -/
def confidence (g : Guess) (k : String) : Option Rat :=
  lookup g.conf k

/-- `Guess.set` (guess.py:69-72): set the value; set the confidence only
when one is given. -/
def set (g : Guess) (k : String) (v : Value) (c : Option Rat) : Guess :=
  ⟨insertKV g.data k v,
    match c with
    | some c0 => insertKV g.conf k c0
    | none => g.conf⟩

/-- `Guess.set_confidence` (guess.py:74-75). -/
def setConfidence (g : Guess) (k : String) (c : Rat) : Guess :=
  ⟨g.data, insertKV g.conf k c⟩

/-- Plain `dict.__setitem__` (`g[k] = v` on a Guess touches only the value
dict, not `_confidence`). -/
def setItem (g : Guess) (k : String) (v : Value) : Guess :=
  ⟨insertKV g.data k v, g.conf⟩

/-- Plain `dict.__delitem__` (`del g[k]` removes the value entry only;
the `_confidence` entry, if any, stays). -/
def delItem (g : Guess) (k : String) : Guess :=
  ⟨eraseKV g.data k, g.conf⟩

/-- Python `g.keys()` (a snapshot list in Python 2). -/
def keys (g : Guess) : List String :=
  g.data.map Prod.fst

/-- The confidence-copy loop of `Guess.update` (guess.py:80-81):
`self._confidence[prop] = other.confidence(prop)` for each key of
`other`; `other.confidence` can raise KeyError. -/
def updateConfLoop (other : Guess) : List String → List (String × Rat) →
    Option (List (String × Rat))
  | [], acc => some acc
  | k :: t, acc =>
    match lookup other.conf k with
    | none => none
    | some c => updateConfLoop other t (insertKV acc k c)

/-- `Guess.update` (guess.py:77-85) with a `Guess` argument:
`dict.update(self, other)`, then per-key confidences copied from `other`,
then an explicit uniform `confidence` argument overriding them all. -/
def update (g other : Guess) (c : Option Rat) : Option Guess :=
  let d := other.data.foldl (fun acc kv => insertKV acc kv.1 kv.2) g.data
  match updateConfLoop other other.keys g.conf with
  | none => none
  | some cf =>
    some ⟨d,
      match c with
      | some c0 => other.keys.foldl (fun acc k => insertKV acc k c0) cf
      | none => cf⟩

/-- The assignment part of `update_highest_confidence` (guess.py:96-97):
`self[prop] = other[prop]; self._confidence[prop] = other._confidence[prop]`. -/
def uhcAssign (other acc : Guess) (prop : String) : Option Guess :=
  match lookup other.data prop, lookup other.conf prop with
  | some ov, some oc => some ⟨insertKV acc.data prop ov, insertKV acc.conf prop oc⟩
  | _, _ => none

/-- One iteration of `update_highest_confidence` (guess.py:93-97):
`if prop in self and self._confidence[prop] >= other._confidence[prop]:
continue` (short-circuit `and`; each raw `_confidence[...]` read can
raise KeyError), else assign value and confidence from `other`. -/
def uhcStep (other acc : Guess) (prop : String) : Option Guess :=
  if hasKey acc.data prop then
    match lookup acc.conf prop with
    | none => none
    | some sc =>
      match lookup other.conf prop with
      | none => none
      | some oc =>
        if oc ≤ sc then some acc
        else uhcAssign other acc prop
  else uhcAssign other acc prop

/-- The `for prop in other` loop of `update_highest_confidence`. -/
def uhcLoop (other : Guess) : Guess → List String → Option Guess
  | acc, [] => some acc
  | acc, k :: t =>
    match uhcStep other acc k with
    | none => none
    | some acc' => uhcLoop other acc' t

/-- `Guess.update_highest_confidence` (guess.py:87-97). -/
def updateHighestConfidence (self other : Guess) : Option Guess :=
  uhcLoop other self other.keys

end Guess

/-- `choose_int` (guess.py:102-113). -/
def choose_int (g1 g2 : Int × Rat) : Int × Rat :=
  let (v1, c1) := g1
  let (v2, c2) := g2
  if v1 = v2 then (v1, 1 - (1 - c1) * (1 - c2))
  else if c1 > c2 then (v1, c1 - c2)
  else (v2, c2 - c1)

/-- Python `str.strip()`-whitespace: space, tab, newline, carriage
return, vertical tab, form feed. -/
def pyIsSpace (c : Char) : Bool :=
  c = ' ' || c = '\t' || c = '\n' || c = '\r' || c = Char.ofNat 11 || c = Char.ofNat 12

/-- Python `str.strip()`: drop leading and trailing whitespace. -/
def pystrip (s : String) : String :=
  ⟨((s.data.dropWhile pyIsSpace).reverse.dropWhile pyIsSpace).reverse⟩

/-- Python `str.lower()` (ASCII; the engine's strings are ASCII release
names). -/
def pylower (s : String) : String :=
  ⟨s.data.map Char.toLower⟩

/-- Python `needle in hay` on strings: contiguous substring test. -/
def pyContains (hay needle : String) : Bool :=
  hay.data.tails.any (fun t => needle.data.isPrefixOf t)

/-- `choose_string` (guess.py:115-145). Note guess.py:120 rebinds `v1`,
`v2` to their stripped forms, so the returned value is the stripped
string; lower-casing is used only in the comparisons. -/
def choose_string (g1 g2 : String × Rat) : String × Rat :=
  let (v1r, c1) := g1
  let (v2r, c2) := g2
  let v1 := pystrip v1r
  let v2 := pystrip v2r
  let v1l := pylower v1
  let v2l := pylower v2
  let combined_prob := 1 - (1 - c1) * (1 - c2)
  if v1l = v2l then (v1, combined_prob)
  else if v1l = "the " ++ v2l then (v1, combined_prob)
  else if v2l = "the " ++ v1l then (v2, combined_prob)
  else if pyContains v1l v2l then (v2, combined_prob)
  else if pyContains v2l v1l then (v1, combined_prob)
  else if c1 > c2 then (v1, c1 - c2)
  else (v2, c2 - c1)

/-- The Python exceptions the merge engine can raise. -/
inductive PyErr where
  | keyError
  | typeError
  | indexError
  | outOfFuel
deriving DecidableEq, Repr

/-- Result of running a piece of the engine: a value or a raised error. -/
inductive Res (α : Type) where
  | ok (a : α)
  | err (e : PyErr)
deriving DecidableEq, Repr

/-- The type of the `choose` argument of the similar-merge functions. -/
abbrev Chooser := (Value × Rat) → (Value × Rat) → (Value × Rat)

/-- Python `len(set(g1) & set(g2))`: how many distinct property names the
two guesses share. -/
def sharedKeyCount (g1 g2 : Guess) : Nat :=
  ((g1.keys).dedup.filter (fun k => g2.hasProp k)).length

/-- Python dict `==` (used by `list.remove`): same keys with equal
values; the `_confidence` dicts are not compared. -/
def dictBeq (a b : List (String × Value)) : Bool :=
  a.all (fun kv => decide (lookup b kv.1 = some kv.2)) &&
    b.all (fun kv => decide (lookup a kv.1 = some kv.2))

/-- Python `guesses.remove(g)`: drop the first element whose dict equals
`g`'s dict. -/
def removeFirstEq : List Guess → Guess → List Guess
  | [], _ => []
  | g :: t, tgt => if dictBeq g.data tgt.data then t else g :: removeFirstEq t tgt

/-- Replace (the object that was) the first `prop`-carrying guess of the
list by its mutated state. -/
def replaceFirstCarrier (prop : String) (g' : Guess) : List Guess → List Guess
  | [] => []
  | g :: t => if g.hasProp prop then g' :: t else g :: replaceFirstCarrier prop g' t

/-- Replace the first two `prop`-carrying guesses by their mutated
states (in-place mutation of `g1` and `g2` seen through the list). -/
def replaceFirstTwoCarriers (prop : String) (g1' g2' : Guess) : List Guess → List Guess
  | [] => []
  | g :: t =>
    if g.hasProp prop then g1' :: replaceFirstCarrier prop g2' t
    else g :: replaceFirstTwoCarriers prop g1' g2' t

/-- `_merge_similar_guesses_nocheck` (guess.py:148-177). The first two
`prop`-carrying guesses are `g1`, `g2` (IndexError when there are fewer
than two). If they share more than one property name the function logs
and returns, leaving the list untouched. Otherwise the chosen value and
confidence are written into `g2`, `g1` is updated from `g2` and `g2` is
removed from the list (`list.remove` compares by dict value). -/
def merge_similar_guesses_nocheck (guesses : List Guess) (prop : String)
    (choose : Chooser) : Res (List Guess) :=
  match guesses.filter (fun g => g.hasProp prop) with
  | g1 :: g2 :: _ =>
    if 1 < sharedKeyCount g1 g2 then
      -- log.warning('both guesses ... bailing out...'); return
      .ok guesses
    else
      match g1.get? prop, g2.get? prop, g1.confidence prop, g2.confidence prop with
      | some v1, some v2, some c1, some c2 =>
        let nc := choose (v1, c1) (v2, c2)
        let g2' := (g2.setItem prop nc.1).setConfidence prop nc.2
        match g1.update g2' none with
        | none => .err .keyError
        | some g1' =>
          .ok (removeFirstEq (replaceFirstTwoCarriers prop g1' g2' guesses) g2')
      | _, _, _, _ => .err .keyError
  | _ => .err .indexError

/-- `merge_similar_guesses` (guess.py:179-196), with explicit fuel for
its self-recursion: fewer than 2 carriers is a no-op, exactly 2 delegates
to the pairwise step once, more than 2 runs one pairwise step and then
recurses on the same list and property. -/
def merge_similar_guesses (choose : Chooser) (prop : String) :
    Nat → List Guess → Res (List Guess)
  | 0, _ => .err .outOfFuel
  | fuel + 1, guesses =>
    let similar := guesses.filter (fun g => g.hasProp prop)
    if similar.length < 2 then .ok guesses
    else if similar.length = 2 then merge_similar_guesses_nocheck guesses prop choose
    else
      match merge_similar_guesses_nocheck guesses prop choose with
      | .err e => .err e
      | .ok guesses' => merge_similar_guesses choose prop fuel guesses'

/-- `merged[prop].append(m[prop])` (guess.py:214): `.append` on the value
stored at `prop` (a list after the seeding step). -/
def appendToProp (merged : Guess) (prop : String) (v : Value) : Res Guess :=
  match merged.get? prop with
  | some (.list l) => .ok (merged.setItem prop (.list (l ++ [v])))
  | some _ => .err .typeError
  | none => .err .keyError

/-- The `for prop2 in m` loop of `merge_append_guesses` (guess.py:212-219).
For `prop2 == prop` the value is appended. For any other property the code
first runs `if prop2 in m: log.warning('overwriting property "%s" with
value ' % (prop2, m[prop2]))` — the condition is always true (`prop2`
iterates over `m`), and the format string has one placeholder for a
two-tuple, so the `%` operation raises TypeError (guess.py:217). -/
def mergeAppendInner (prop : String) (m : Guess) : Guess → List String → Res Guess
  | merged, [] => .ok merged
  | merged, prop2 :: t =>
    if prop = prop2 then
      match m.get? prop with
      | some v =>
        match appendToProp merged prop v with
        | .ok merged' => mergeAppendInner prop m merged' t
        | .err e => .err e
      | none => .err .keyError
    else
      if hasKey m.data prop2 then .err .typeError
      else
        match m.get? prop2 with
        | some v => mergeAppendInner prop m (merged.setItem prop2 v) t
        | none => .err .keyError

/-- The `for m in similar[1:]` loop of `merge_append_guesses`
(guess.py:211-221): absorb each subsequent carrier into the accumulator,
then `guesses.remove(m)`. -/
def mergeAppendOuter (prop : String) :
    Guess → List Guess → List Guess → Res (Guess × List Guess)
  | merged, [], guesses => .ok (merged, guesses)
  | merged, m :: rest, guesses =>
    match mergeAppendInner prop m merged m.keys with
    | .err e => .err e
    | .ok merged' => mergeAppendOuter prop merged' rest (removeFirstEq guesses m)

/-- `merge_append_guesses` (guess.py:199-221). The accumulator is
`similar[0]`, mutated in place inside the list; its scalar value at
`prop` is first wrapped in a one-element list. The returned list is the
working list after the removals, with the accumulator's final state at
its position (the first remaining `prop` carrier). -/
def merge_append_guesses (guesses : List Guess) (prop : String) : Res (List Guess) :=
  match guesses.filter (fun g => g.hasProp prop) with
  | [] => .ok guesses
  | merged0 :: rest =>
    match merged0.get? prop with
    | none => .err .keyError
    | some v0 =>
      match mergeAppendOuter prop (merged0.setItem prop (.list [v0])) rest guesses with
      | .err e => .err e
      | .ok (mergedF, remaining) => .ok (replaceFirstCarrier prop mergedF remaining)

/-- The `for prop in append` loop of `merge_all` (guess.py:245-251):
`result.set(prop, result.get(prop, []) + [ g[prop] ], confidence =
g.confidence(prop))` followed by `del g[prop]`. Python's `+` between the
current value of `result.get(prop, [])` and the one-element list raises
TypeError when that current value is not a list (an int or str). -/
def mergeAllAppendLoop : Guess → Guess → List String → Res (Guess × Guess)
  | result, g, [] => .ok (result, g)
  | result, g, prop :: t =>
    if g.hasProp prop then
      match g.get? prop with
      | none => .err .keyError
      | some gv =>
        match (match result.get? prop with | some v => v | none => Value.list []) with
        | .list l =>
          match g.confidence prop with
          | none => .err .keyError
          | some c =>
            mergeAllAppendLoop (result.set prop (.list (l ++ [gv])) (some c))
              (g.delItem prop) t
        | _ => .err .typeError
    else mergeAllAppendLoop result g t

/-- The `for g in guesses[1:]` loop of `merge_all` (guess.py:243-257):
append-properties first, then `result.update_highest_confidence(g)` (the
duplicate-property warning in between only logs). -/
def mergeAllMainLoop (append : List String) : Guess → List Guess → Res Guess
  | result, [] => .ok result
  | result, g :: t =>
    match mergeAllAppendLoop result g append with
    | .err e => .err e
    | .ok (result', g') =>
      match result'.updateHighestConfidence g' with
      | none => .err .keyError
      | some result2 => mergeAllMainLoop append result2 t

/-- The pruning loop of `merge_all` (guess.py:259-262): delete every
property whose confidence is below 0.05 (iterating over a snapshot of
the keys; `del` removes only the value entry). -/
def mergeAllPrune : Guess → List String → Res Guess
  | result, [] => .ok result
  | result, p :: t =>
    match result.confidence p with
    | none => .err .keyError
    | some c =>
      if c < mkRat 5 100 then mergeAllPrune (result.delItem p) t
      else mergeAllPrune result t

/-- Python `list(set(x))` (guess.py:267): ints and strings are hashable,
iterating an int raises TypeError, a set of a string is a set of its
characters, a list containing a list raises TypeError (unhashable); the
iteration order of a Python set is unspecified and is modelled by
`List.dedup`. -/
def pySetOfValue : Value → Res (List Value)
  | .int _ => .err .typeError
  | .str s => .ok ((s.data.map (fun ch => Value.str (String.mk [ch]))).dedup)
  | .list l => if l.any Value.isList then .err .typeError else .ok l.dedup

/-- The de-duplication loop of `merge_all` (guess.py:265-267):
`result[prop] = list(set(result[prop]))` for each append property still
present (a plain dict assignment, confidences untouched). -/
def mergeAllDedup : Guess → List String → Res Guess
  | result, [] => .ok result
  | result, prop :: t =>
    if result.hasProp prop then
      match result.get? prop with
      | none => .err .keyError
      | some v =>
        match pySetOfValue v with
        | .err e => .err e
        | .ok l' => mergeAllDedup (result.setItem prop (.list l')) t
    else mergeAllDedup result t

/-- `merge_all` (guess.py:224-269): fold all guesses into the first one
(append-properties accumulated into lists, the rest merged by highest
confidence), prune properties with confidence below 0.05, then
de-duplicate the append lists. -/
def merge_all (guesses : List Guess) (append : List String) : Res Guess :=
  match guesses with
  | [] => .ok (Guess.ofDict [] 0)
  | result0 :: rest =>
    match mergeAllMainLoop append result0 rest with
    | .err e => .err e
    | .ok r1 =>
      match mergeAllPrune r1 r1.keys with
      | .err e => .err e
      | .ok r2 => mergeAllDedup r2 append

/-- Well-formedness of a `Guess` as `Guess.__init__` establishes it:
every key of the value dict has a confidence entry. -/
def wfConfB (g : Guess) : Bool :=
  g.data.all (fun kv => hasKey g.conf kv.1)

/-- Strengthened well-formedness used for `merge_all` runs: every key of
the value dict has a confidence entry of at least the 0.05 pruning
threshold. -/
def wfMinB (g : Guess) : Bool :=
  g.data.all (fun kv =>
    match lookup g.conf kv.1 with
    | some c => decide (mkRat 5 100 ≤ c)
    | none => false)

/-- Pointwise form of `wfMinB`. -/
def wfMinPt (g : Guess) : Prop :=
  ∀ k v, lookup g.data k = some v → ∃ c, lookup g.conf k = some c ∧ mkRat 5 100 ≤ c

/-- The keep-the-current-entry condition of `update_highest_confidence`
at one key: `prop in self and self._confidence[prop] >=
other._confidence[prop]`. -/
def keptByHighest (self other : Guess) (k : String) : Bool :=
  self.hasProp k &&
    (match lookup self.conf k, lookup other.conf k with
     | some sc, some oc => decide (oc ≤ sc)
     | _, _ => false)

/-- Every property of `a` other than `prop` is absent from `b`. -/
def disjointExceptB (prop : String) (a b : Guess) : Bool :=
  a.data.all (fun kv => kv.1 == prop || !(hasKey b.data kv.1))

/-- The guesses of the list carry pairwise disjoint property sets apart
from `prop` itself. -/
def pairwiseDisjointB (prop : String) : List Guess → Bool
  | [] => true
  | g :: t => t.all (fun h => disjointExceptB prop g h) && pairwiseDisjointB prop t

/-- The values the guesses carry under `prop`, in list order. -/
def appendValues (gs : List Guess) (prop : String) : List Value :=
  gs.filterMap (fun g => g.get? prop)

/-- Each guess carries a scalar (hashable, appendable) value under
`prop`. -/
def carriesScalarB (gs : List Guess) (prop : String) : Bool :=
  gs.all (fun g =>
    match g.get? prop with
    | some v => !v.isList
    | none => false)

/-- Three guesses of which the first two carry the same two properties:
the ambiguity bail-out fires while three `"a"`-carriers remain. -/
def ambiguousTriple : List Guess :=
  [Guess.ofDict [("a", .int 1), ("b", .int 1)] (mkRat 5 10),
   Guess.ofDict [("a", .int 2), ("b", .int 2)] (mkRat 5 10),
   Guess.ofDict [("a", .int 3)] (mkRat 5 10)]

/-! ### General lemmas about the dict model -/

theorem lookup_insertKV_self {α : Type} (l : List (String × α)) (k : String) (v : α) :
    lookup (insertKV l k v) k = some v := by
  induction l with
  | nil => simp [insertKV, lookup]
  | cons kv t ih =>
    by_cases h : kv.1 = k
    · simp [insertKV, lookup, h]
    · simp [insertKV, lookup, h, ih]

theorem lookup_insertKV_ne {α : Type} (l : List (String × α)) (k k' : String) (v : α)
    (h : k' ≠ k) : lookup (insertKV l k v) k' = lookup l k' := by
  induction l with
  | nil => simp [insertKV, lookup, Ne.symm h]
  | cons kv t ih =>
    by_cases hk : kv.1 = k
    · simp only [insertKV, if_pos hk, lookup]
      rw [if_neg (by simpa using Ne.symm h), if_neg (by rw [hk]; exact Ne.symm h)]
    · simp only [insertKV, if_neg hk, lookup]
      by_cases hk' : kv.1 = k'
      · rw [if_pos hk', if_pos hk']
      · rw [if_neg hk', if_neg hk', ih]

theorem lookup_eraseKV_self {α : Type} (l : List (String × α)) (k : String) :
    lookup (eraseKV l k) k = none := by
  induction l with
  | nil => simp [eraseKV, lookup]
  | cons kv t ih =>
    by_cases h : kv.1 = k
    · simpa [eraseKV, lookup, h] using ih
    · simpa [eraseKV, lookup, h] using ih

theorem lookup_eraseKV_ne {α : Type} (l : List (String × α)) (k k' : String)
    (h : k' ≠ k) : lookup (eraseKV l k) k' = lookup l k' := by
  induction l with
  | nil => simp [eraseKV, lookup]
  | cons kv t ih =>
    by_cases hk : kv.1 = k
    · rw [show eraseKV (kv :: t) k = eraseKV t k by simp [eraseKV, hk]]
      rw [lookup, if_neg (by rw [hk]; exact Ne.symm h)]
      exact ih
    · rw [show eraseKV (kv :: t) k = kv :: eraseKV t k by simp [eraseKV, hk]]
      rw [lookup, lookup]
      by_cases hk' : kv.1 = k'
      · rw [if_pos hk', if_pos hk']
      · rw [if_neg hk', if_neg hk', ih]

theorem mem_keys_of_lookup {α : Type} {l : List (String × α)} {k : String} {v : α}
    (h : lookup l k = some v) : k ∈ l.map Prod.fst := by
  induction l with
  | nil => simp [lookup] at h
  | cons kv t ih =>
    rw [lookup] at h
    by_cases hk : kv.1 = k
    · simp [← hk]
    · rw [if_neg hk] at h
      simpa using Or.inr (ih h)

theorem lookup_eq_some_of_mem_nodup {α : Type} {l : List (String × α)}
    {k : String} {v : α} (hnd : (l.map Prod.fst).Nodup) (hmem : (k, v) ∈ l) :
    lookup l k = some v := by
  induction l with
  | nil => simp at hmem
  | cons kv t ih =>
    simp only [List.map_cons, List.nodup_cons] at hnd
    rcases List.mem_cons.mp hmem with h | h
    · rw [← h, lookup, if_pos rfl]
    · have hk : kv.1 ≠ k := by
        intro heq
        exact hnd.1 (heq ▸ (by simpa using List.mem_map_of_mem Prod.fst h))
      rw [lookup, if_neg hk]
      exact ih hnd.2 h

theorem lookup_some_mem {α : Type} {l : List (String × α)} {k : String} {v : α}
    (h : lookup l k = some v) : (k, v) ∈ l := by
  induction l with
  | nil => simp [lookup] at h
  | cons kv t ih =>
    rw [lookup] at h
    by_cases hk : kv.1 = k
    · rw [if_pos hk] at h
      exact List.mem_cons.mpr (Or.inl (by
        cases kv
        simp only [Option.some.injEq] at h
        simp_all))
    · rw [if_neg hk] at h
      exact List.mem_cons.mpr (Or.inr (ih h))

theorem hasKey_of_mem_keys {α : Type} {l : List (String × α)} {k : String}
    (h : k ∈ l.map Prod.fst) : hasKey l k = true := by
  induction l with
  | nil => simp at h
  | cons kv t ih =>
    simp only [List.map_cons, List.mem_cons] at h
    by_cases hk : kv.1 = k
    · simp [hasKey, lookup, hk]
    · rcases h with h | h
      · exact absurd h.symm hk
      · simpa [hasKey, lookup, hk] using ih h

theorem mem_keys_of_hasKey {α : Type} {l : List (String × α)} {k : String}
    (h : hasKey l k = true) : k ∈ l.map Prod.fst := by
  unfold hasKey at h
  rw [Option.isSome_iff_exists] at h
  obtain ⟨v, hv⟩ := h
  exact List.mem_map_of_mem Prod.fst (lookup_some_mem hv)

theorem lookup_isSome_of_hasKey {α : Type} {l : List (String × α)} {k : String}
    (h : hasKey l k = true) : ∃ v, lookup l k = some v := by
  unfold hasKey at h
  exact Option.isSome_iff_exists.mp h

theorem lookup_none_of_not_hasKey {α : Type} {l : List (String × α)} {k : String}
    (h : hasKey l k = false) : lookup l k = none := by
  unfold hasKey at h
  exact Option.not_isSome_iff_eq_none.mp (by simp [h])

theorem lookup_map_const {α β : Type} (d : List (String × α)) (c : β) (k : String) :
    lookup (d.map (fun kv => (kv.1, c))) k = (lookup d k).map (fun _ => c) := by
  induction d with
  | nil => simp [lookup]
  | cons kv t ih =>
    by_cases hk : kv.1 = k
    · simp [lookup, hk]
    · simpa [lookup, hk] using ih

theorem wfConfB_pt {g : Guess} (hwf : wfConfB g = true) {k : String}
    (hk : hasKey g.data k = true) : ∃ c, lookup g.conf k = some c := by
  obtain ⟨v, hv⟩ := lookup_isSome_of_hasKey hk
  have := (List.all_eq_true.mp hwf) _ (lookup_some_mem hv)
  exact lookup_isSome_of_hasKey this

theorem wfMinB_pt {g : Guess} (hwf : wfMinB g = true) : wfMinPt g := by
  intro k v hv
  have := (List.all_eq_true.mp hwf) _ (lookup_some_mem hv)
  simp only at this
  rcases hc : lookup g.conf k with _ | c
  · rw [hc] at this
    simp at this
  · rw [hc] at this
    exact ⟨c, rfl, by simpa using this⟩

theorem wfConfB_of_wfMinB {g : Guess} (hwf : wfMinB g = true) : wfConfB g = true := by
  rw [wfConfB, List.all_eq_true]
  intro kv hkv
  have := (List.all_eq_true.mp hwf) _ hkv
  simp only at this
  rcases hc : lookup g.conf kv.1 with _ | c
  · rw [hc] at this
    simp at this
  · simp [hasKey, hc]

/-! ### String helpers for `choose_string` -/

theorem pylower_length (s : String) : (pylower s).length = s.length := by
  cases s
  simp [pylower, String.length]

theorem length_lt_of_pyContains_ne {hay needle : String}
    (h : pyContains hay needle = true) (hne : needle ≠ hay) :
    needle.length < hay.length := by
  unfold pyContains at h
  rw [List.any_eq_true] at h
  obtain ⟨t, ht, hp⟩ := h
  have hsuf : t <:+ hay.data := by rwa [List.mem_tails] at ht
  have hpre : needle.data <+: t := by rwa [List.isPrefixOf_iff_prefix] at hp
  have h1 : needle.data.length ≤ t.length := hpre.length_le
  have h2 : t.length ≤ hay.data.length := hsuf.length_le
  have hlen : needle.length = needle.data.length := rfl
  have hlen2 : hay.length = hay.data.length := rfl
  rcases Nat.lt_or_ge needle.data.length hay.data.length with hlt | hge
  · omega
  · exfalso
    have h3 : t.length = hay.data.length := by omega
    have hteq : t = hay.data := hsuf.eq_of_length h3
    have hneq : needle.data = t := hpre.eq_of_length (by omega)
    apply hne
    cases needle
    cases hay
    simp_all

/-! ### C5, C6, C7: the scalar reconcilers -/

/-- C5: `choose_int` on equal values returns the first value with the
probabilistic-OR confidence `1-(1-c1)*(1-c2)`, which for confidences in
[0,1] is at least `max c1 c2`; on distinct values it returns the
higher-confidence value with confidence `|c1-c2|`, the second value
winning an exact confidence tie (with confidence 0). -/
theorem choose_int_spec (v1 v2 : Int) (c1 c2 : Rat)
    (h0 : 0 ≤ c1) (h1 : c1 ≤ 1) (h2 : 0 ≤ c2) (h3 : c2 ≤ 1) :
    (v1 = v2 → choose_int (v1, c1) (v2, c2) = (v1, 1 - (1 - c1) * (1 - c2)) ∧
      max c1 c2 ≤ 1 - (1 - c1) * (1 - c2)) ∧
    (v1 ≠ v2 → c2 < c1 → choose_int (v1, c1) (v2, c2) = (v1, c1 - c2)) ∧
    (v1 ≠ v2 → c1 ≤ c2 → choose_int (v1, c1) (v2, c2) = (v2, c2 - c1)) ∧
    (v1 ≠ v2 → (choose_int (v1, c1) (v2, c2)).2 = |c1 - c2|) ∧
    (v1 ≠ v2 → c1 = c2 → choose_int (v1, c1) (v2, c2) = (v2, 0)) := by
  refine ⟨?_, ?_, ?_, ?_, ?_⟩
  · intro hv
    constructor
    · simp [choose_int, hv]
    · rw [max_le_iff]
      constructor <;> nlinarith
  · intro hv hc
    simp only [choose_int, if_neg hv, gt_iff_lt, if_pos hc]
  · intro hv hc
    simp only [choose_int, if_neg hv, gt_iff_lt, if_neg (not_lt.mpr hc)]
  · intro hv
    rcases lt_or_ge c2 c1 with hc | hc
    · simp only [choose_int, if_neg hv, gt_iff_lt, if_pos hc]
      rw [abs_of_pos (by linarith)]
    · simp only [choose_int, if_neg hv, gt_iff_lt, if_neg (not_lt.mpr hc)]
      rw [abs_of_nonpos (by linarith)]
      ring
  · intro hv hc
    simp only [choose_int, if_neg hv, gt_iff_lt, if_neg (not_lt.mpr (le_of_eq hc))]
    rw [hc, sub_self]

theorem choose_int_spec_witness :
    (choose_int (5, mkRat 1 2) (5, mkRat 1 2) =
        (5, 1 - (1 - mkRat 1 2) * (1 - mkRat 1 2)) ∧
      max (mkRat 1 2) (mkRat 1 2) ≤ 1 - (1 - mkRat 1 2) * (1 - mkRat 1 2)) ∧
    choose_int (1, mkRat 1 3) (2, mkRat 1 3) = (2, 0) := by
  constructor
  · exact (choose_int_spec 5 5 (mkRat 1 2) (mkRat 1 2)
      (by decide) (by decide) (by decide) (by decide)).1 rfl
  · exact (choose_int_spec 1 2 (mkRat 1 3) (mkRat 1 3)
      (by decide) (by decide) (by decide) (by decide)).2.2.2.2 (by decide) rfl

/-- C7 counterexample: `choose_string` returns the stripped winner, so
with a whitespace-padded input the returned value is neither original
input string. -/
theorem choose_string_trims_counterexample :
    choose_string (" A ", mkRat 1 2) ("B", mkRat 1 4) = ("A", mkRat 1 4) ∧
    "A" ≠ " A " ∧ "A" ≠ "B" := by
  refine ⟨?_, by decide, by decide⟩
  simp +decide only [choose_string]
  norm_num [Rat.mkRat_eq_div]
  decide

/-- C7 amended: the value component of a `choose_string` result is one of
the two inputs after whitespace stripping (original casing preserved;
lower-casing is used only for the comparisons). -/
theorem choose_string_value_is_stripped_input (g1 g2 : String × Rat) :
    (choose_string g1 g2).1 = pystrip g1.1 ∨ (choose_string g1 g2).1 = pystrip g2.1 := by
  obtain ⟨v1, c1⟩ := g1
  obtain ⟨v2, c2⟩ := g2
  simp only [choose_string]
  split_ifs <;> simp

/-- C6: the "the "-prefix rule of `choose_string` returns the prefixed
variant with the combined probability `1-(1-c1)*(1-c2)`; it is checked
before the substring rule (witnessed by the "The Matrix"/"Matrix"
example); when no prefix rule applies and one lowered string is a proper
substring of the other, the shorter one is returned with the combined
probability. -/
theorem choose_string_the_rule_and_substring_rule (a b : String) (c1 c2 : Rat) :
    (pylower (pystrip a) = "the " ++ pylower (pystrip b) →
      choose_string (a, c1) (b, c2) = (pystrip a, 1 - (1 - c1) * (1 - c2))) ∧
    (pylower (pystrip b) = "the " ++ pylower (pystrip a) →
      choose_string (a, c1) (b, c2) = (pystrip b, 1 - (1 - c1) * (1 - c2))) ∧
    choose_string ("The Matrix", mkRat 1 2) ("Matrix", mkRat 1 2) =
      ("The Matrix", mkRat 3 4) ∧
    (pylower (pystrip a) ≠ pylower (pystrip b) →
     pylower (pystrip a) ≠ "the " ++ pylower (pystrip b) →
     pylower (pystrip b) ≠ "the " ++ pylower (pystrip a) →
     pyContains (pylower (pystrip a)) (pylower (pystrip b)) = true →
      choose_string (a, c1) (b, c2) = (pystrip b, 1 - (1 - c1) * (1 - c2)) ∧
        (pystrip b).length < (pystrip a).length) ∧
    (pylower (pystrip a) ≠ pylower (pystrip b) →
     pylower (pystrip a) ≠ "the " ++ pylower (pystrip b) →
     pylower (pystrip b) ≠ "the " ++ pylower (pystrip a) →
     pyContains (pylower (pystrip a)) (pylower (pystrip b)) = false →
     pyContains (pylower (pystrip b)) (pylower (pystrip a)) = true →
      choose_string (a, c1) (b, c2) = (pystrip a, 1 - (1 - c1) * (1 - c2)) ∧
        (pystrip a).length < (pystrip b).length) := by
  have hthe : ∀ s t : String, s = "the " ++ t → s.length = t.length + 4 := by
    intro s t h
    rw [h, String.length_append]
    have h4 : "the ".length = 4 := rfl
    omega
  refine ⟨?_, ?_, ?_, ?_, ?_⟩
  · intro h
    have hne : ¬(pylower (pystrip a) = pylower (pystrip b)) := by
      intro heq
      have := hthe _ _ h
      rw [heq] at this
      omega
    simp only [choose_string]
    rw [if_neg hne, if_pos h]
  · intro h
    have hne : ¬(pylower (pystrip a) = pylower (pystrip b)) := by
      intro heq
      have := hthe _ _ h
      rw [heq] at this
      omega
    have hne2 : ¬(pylower (pystrip a) = "the " ++ pylower (pystrip b)) := by
      intro heq
      have l1 := hthe _ _ h
      have l2 := hthe _ _ heq
      omega
    simp only [choose_string]
    rw [if_neg hne, if_neg hne2, if_pos h]
  · simp +decide only [choose_string]
    norm_num [Rat.mkRat_eq_div]
    decide
  · intro hne hn1 hn2 hcont
    constructor
    · simp only [choose_string]
      rw [if_neg hne, if_neg hn1, if_neg hn2, if_pos hcont]
    · have := length_lt_of_pyContains_ne hcont (Ne.symm hne)
      rw [pylower_length, pylower_length] at this
      exact this
  · intro hne hn1 hn2 hcf hcont
    constructor
    · simp only [choose_string]
      rw [if_neg hne, if_neg hn1, if_neg hn2, hcf, if_neg (by simp), if_pos hcont]
    · have := length_lt_of_pyContains_ne hcont hne
      rw [pylower_length, pylower_length] at this
      exact this

theorem choose_string_the_rule_and_substring_rule_witness :
    choose_string ("The Matrix", mkRat 1 2) ("Matrix", mkRat 1 2) =
      ("The Matrix", 1 - (1 - mkRat 1 2) * (1 - mkRat 1 2)) ∧
    (choose_string ("Aliens", mkRat 3 5) ("Alien", mkRat 2 5) =
      ("Alien", 1 - (1 - mkRat 3 5) * (1 - mkRat 2 5)) ∧
      ("Alien".length < "Aliens".length)) := by
  constructor
  · exact (choose_string_the_rule_and_substring_rule "The Matrix" "Matrix"
      (mkRat 1 2) (mkRat 1 2)).1 (by decide)
  · have h := (choose_string_the_rule_and_substring_rule "Aliens" "Alien"
      (mkRat 3 5) (mkRat 2 5)).2.2.2.1 (by decide) (by decide) (by decide) (by decide)
    exact ⟨h.1, h.2⟩

/-! ### The `update_highest_confidence` fold -/

theorem keptByHighest_congr (other : Guess) {acc acc' : Guess} {k : String}
    (hd : lookup acc'.data k = lookup acc.data k)
    (hc : lookup acc'.conf k = lookup acc.conf k) :
    keptByHighest acc' other k = keptByHighest acc other k := by
  simp [keptByHighest, Guess.hasProp, hasKey, hd, hc]

theorem uhcLoop_spec (other : Guess)
    (ho : ∀ k, hasKey other.data k = true → ∃ c, lookup other.conf k = some c) :
    ∀ (ks : List String) (acc : Guess), ks.Nodup →
      (∀ k ∈ ks, hasKey other.data k = true) →
      (∀ k ∈ ks, hasKey acc.data k = true → ∃ c, lookup acc.conf k = some c) →
      ∃ r, Guess.uhcLoop other acc ks = some r ∧
        (∀ k, k ∉ ks → lookup r.data k = lookup acc.data k ∧
          lookup r.conf k = lookup acc.conf k) ∧
        (∀ k ∈ ks,
          (keptByHighest acc other k = true → lookup r.data k = lookup acc.data k ∧
            lookup r.conf k = lookup acc.conf k) ∧
          (keptByHighest acc other k = false → lookup r.data k = lookup other.data k ∧
            lookup r.conf k = lookup other.conf k)) := by
  intro ks
  induction ks with
  | nil =>
    intro acc _ _ _
    exact ⟨acc, rfl, fun k _ => ⟨rfl, rfl⟩, by simp⟩
  | cons k0 t ih =>
    intro acc hnd hcar haccwf
    obtain ⟨oc, hoc⟩ := ho k0 (hcar k0 (by simp))
    have hstep : ∃ acc', Guess.uhcStep other acc k0 = some acc' ∧
        ((keptByHighest acc other k0 = true ∧ acc' = acc) ∨
         (keptByHighest acc other k0 = false ∧
           lookup acc'.data k0 = lookup other.data k0 ∧
           lookup acc'.conf k0 = lookup other.conf k0 ∧
           (∀ k, k ≠ k0 → lookup acc'.data k = lookup acc.data k ∧
             lookup acc'.conf k = lookup acc.conf k))) := by
      obtain ⟨ov, hov⟩ := lookup_isSome_of_hasKey (hcar k0 (by simp))
      have hassign : Guess.uhcAssign other acc k0 =
          some ⟨insertKV acc.data k0 ov, insertKV acc.conf k0 oc⟩ := by
        unfold Guess.uhcAssign
        rw [hov, hoc]
      by_cases hin : hasKey acc.data k0 = true
      · obtain ⟨sc, hsc⟩ := haccwf k0 (by simp) hin
        have hval : Guess.uhcStep other acc k0 =
            if oc ≤ sc then some acc else Guess.uhcAssign other acc k0 := by
          unfold Guess.uhcStep
          rw [if_pos hin, hsc, hoc]
        by_cases hcmp : oc ≤ sc
        · refine ⟨acc, by rw [hval, if_pos hcmp], Or.inl ⟨?_, rfl⟩⟩
          simp [keptByHighest, Guess.hasProp, hin, hsc, hoc, hcmp]
        · refine ⟨_, by rw [hval, if_neg hcmp, hassign], Or.inr ⟨?_, ?_, ?_, ?_⟩⟩
          · simp [keptByHighest, Guess.hasProp, hin, hsc, hoc, hcmp]
          · simp [lookup_insertKV_self, hov]
          · simp [lookup_insertKV_self, hoc]
          · intro k hk
            exact ⟨lookup_insertKV_ne _ _ _ _ hk, lookup_insertKV_ne _ _ _ _ hk⟩
      · have hval : Guess.uhcStep other acc k0 = Guess.uhcAssign other acc k0 := by
          unfold Guess.uhcStep
          rw [if_neg hin]
        refine ⟨_, by rw [hval, hassign], Or.inr ⟨?_, ?_, ?_, ?_⟩⟩
        · simp [keptByHighest, Guess.hasProp, hin]
        · simp [lookup_insertKV_self, hov]
        · simp [lookup_insertKV_self, hoc]
        · intro k hk
          exact ⟨lookup_insertKV_ne _ _ _ _ hk, lookup_insertKV_ne _ _ _ _ hk⟩
    obtain ⟨acc', hstep_eq, hcases⟩ := hstep
    have hnd' := (List.nodup_cons.mp hnd).2
    have hk0t := (List.nodup_cons.mp hnd).1
    have hcar' : ∀ k ∈ t, hasKey other.data k = true := fun k hk => hcar k (by simp [hk])
    have haccwf' : ∀ k ∈ t, hasKey acc'.data k = true →
        ∃ c, lookup acc'.conf k = some c := by
      intro k hk hkd
      have hne : k ≠ k0 := fun h => hk0t (h ▸ hk)
      rcases hcases with ⟨_, rfl⟩ | ⟨_, _, _, hrest⟩
      · exact haccwf k (by simp [hk]) hkd
      · obtain ⟨hd, hc⟩ := hrest k hne
        rw [hc]
        apply haccwf k (by simp [hk])
        unfold hasKey at hkd ⊢
        rwa [← hd]
    obtain ⟨r, hloop, hout, hin_spec⟩ := ih acc' hnd' hcar' haccwf'
    refine ⟨r, ?_, ?_, ?_⟩
    · rw [Guess.uhcLoop, hstep_eq]
      exact hloop
    · intro k hk
      have hk0 : k ≠ k0 := fun h => hk (by simp [h])
      have hkt : k ∉ t := fun h => hk (by simp [h])
      obtain ⟨hd, hc⟩ := hout k hkt
      rcases hcases with ⟨_, rfl⟩ | ⟨_, _, _, hrest⟩
      · exact ⟨hd, hc⟩
      · obtain ⟨hd2, hc2⟩ := hrest k hk0
        exact ⟨hd.trans hd2, hc.trans hc2⟩
    · intro k hkmem
      rcases List.mem_cons.mp hkmem with rfl | hkt
      · obtain ⟨hd, hc⟩ := hout k hk0t
        rcases hcases with ⟨hkept, rfl⟩ | ⟨hkept, hd2, hc2, _⟩
        · exact ⟨fun _ => ⟨hd, hc⟩, fun hfalse => absurd hkept (by simp [hfalse])⟩
        · exact ⟨fun htrue => absurd hkept (by simp [htrue]),
            fun _ => ⟨hd.trans hd2, hc.trans hc2⟩⟩
      · have hne : k ≠ k0 := fun h => hk0t (h ▸ hkt)
        have hspec := hin_spec k hkt
        rcases hcases with ⟨_, rfl⟩ | ⟨_, _, _, hrest⟩
        · exact hspec
        · obtain ⟨hd, hc⟩ := hrest k hne
          have hcong := keptByHighest_congr other hd hc
          constructor
          · intro htrue
            obtain ⟨hdr, hcr⟩ := hspec.1 (by rw [hcong]; exact htrue)
            exact ⟨hdr.trans hd, hcr.trans hc⟩
          · intro hfalse
            exact hspec.2 (by rw [hcong]; exact hfalse)

/-- C8: `update_highest_confidence` adopts, per key of `other`, the value
and confidence of `other` exactly when self does not already carry the
key with confidence at least other's (so an exact tie keeps self's
entry); keys outside `other` are untouched. -/
theorem update_highest_confidence_spec (self other : Guess)
    (hnd : other.keys.Nodup) (hself : wfConfB self = true)
    (hother : wfConfB other = true) :
    ∃ r, self.updateHighestConfidence other = some r ∧
      (∀ k, other.hasProp k = false →
        r.get? k = self.get? k ∧ r.confidence k = self.confidence k) ∧
      (∀ k, other.hasProp k = true → keptByHighest self other k = true →
        r.get? k = self.get? k ∧ r.confidence k = self.confidence k) ∧
      (∀ k, other.hasProp k = true → keptByHighest self other k = false →
        r.get? k = other.get? k ∧ r.confidence k = other.confidence k) := by
  have ho : ∀ k, hasKey other.data k = true → ∃ c, lookup other.conf k = some c :=
    fun k hk => wfConfB_pt hother hk
  have hcar : ∀ k ∈ other.keys, hasKey other.data k = true :=
    fun k hk => hasKey_of_mem_keys hk
  have haccwf : ∀ k ∈ other.keys, hasKey self.data k = true →
      ∃ c, lookup self.conf k = some c :=
    fun k _ hk => wfConfB_pt hself hk
  obtain ⟨r, hloop, hout, hin⟩ := uhcLoop_spec other ho other.keys self hnd hcar haccwf
  refine ⟨r, hloop, ?_, ?_, ?_⟩
  · intro k hk
    have hmem : k ∉ other.keys := by
      intro hmem
      rw [Guess.hasProp, hasKey_of_mem_keys hmem] at hk
      exact Bool.true_eq_false.mp hk
    exact hout k hmem
  · intro k hk hkept
    exact (hin k (mem_keys_of_hasKey hk)).1 hkept
  · intro k hk hkept
    exact (hin k (mem_keys_of_hasKey hk)).2 hkept

theorem update_highest_confidence_spec_witness :
    ∃ r, (Guess.ofDict [("x", .int 1), ("y", .int 2)] (mkRat 5 10)).updateHighestConfidence
        (Guess.ofDict [("x", .int 9), ("z", .int 3)] (mkRat 7 10)) = some r ∧
      (∀ k, (Guess.ofDict [("x", .int 9), ("z", .int 3)] (mkRat 7 10)).hasProp k = false →
        r.get? k = (Guess.ofDict [("x", .int 1), ("y", .int 2)] (mkRat 5 10)).get? k ∧
        r.confidence k =
          (Guess.ofDict [("x", .int 1), ("y", .int 2)] (mkRat 5 10)).confidence k) ∧
      (∀ k, (Guess.ofDict [("x", .int 9), ("z", .int 3)] (mkRat 7 10)).hasProp k = true →
        keptByHighest (Guess.ofDict [("x", .int 1), ("y", .int 2)] (mkRat 5 10))
          (Guess.ofDict [("x", .int 9), ("z", .int 3)] (mkRat 7 10)) k = true →
        r.get? k = (Guess.ofDict [("x", .int 1), ("y", .int 2)] (mkRat 5 10)).get? k ∧
        r.confidence k =
          (Guess.ofDict [("x", .int 1), ("y", .int 2)] (mkRat 5 10)).confidence k) ∧
      (∀ k, (Guess.ofDict [("x", .int 9), ("z", .int 3)] (mkRat 7 10)).hasProp k = true →
        keptByHighest (Guess.ofDict [("x", .int 1), ("y", .int 2)] (mkRat 5 10))
          (Guess.ofDict [("x", .int 9), ("z", .int 3)] (mkRat 7 10)) k = false →
        r.get? k = (Guess.ofDict [("x", .int 9), ("z", .int 3)] (mkRat 7 10)).get? k ∧
        r.confidence k =
          (Guess.ofDict [("x", .int 9), ("z", .int 3)] (mkRat 7 10)).confidence k) :=
  update_highest_confidence_spec _ _ (by decide) (by decide) (by decide)

/-! ### C4, C3, C2: pairwise merge bail-out, recursion, append crash -/

/-- C4: when the first two `prop`-carrying guesses share more than one
property name, `_merge_similar_guesses_nocheck` logs and returns without
touching anything: the returned working list is exactly the input list,
so both guesses keep all their values and confidences. -/
theorem merge_similar_guesses_nocheck_ambiguous_noop
    (guesses : List Guess) (prop : String) (choose : Chooser) (g1 g2 : Guess)
    (rest : List Guess)
    (hsim : guesses.filter (fun g => g.hasProp prop) = g1 :: g2 :: rest)
    (hshared : 1 < sharedKeyCount g1 g2) :
    merge_similar_guesses_nocheck guesses prop choose = .ok guesses := by
  unfold merge_similar_guesses_nocheck
  rw [hsim]
  simp only [if_pos hshared]

theorem merge_similar_guesses_nocheck_ambiguous_noop_witness :
    merge_similar_guesses_nocheck ambiguousTriple "a" (fun p _ => p) =
      .ok ambiguousTriple :=
  merge_similar_guesses_nocheck_ambiguous_noop ambiguousTriple "a" (fun p _ => p)
    (Guess.ofDict [("a", .int 1), ("b", .int 1)] (mkRat 5 10))
    (Guess.ofDict [("a", .int 2), ("b", .int 2)] (mkRat 5 10))
    [Guess.ofDict [("a", .int 3)] (mkRat 5 10)]
    (by decide) (by decide)

/-- C3: on a list with three carriers of `"a"` whose first two share two
property names, every merge step bails out without shrinking the list, so
the `len(similar) > 2` branch of `merge_similar_guesses` recurses on an
unchanged list forever: no amount of fuel completes the run (in Python,
unbounded recursion until RecursionError). -/
theorem merge_similar_guesses_ambiguous_diverges (choose : Chooser) (fuel : Nat) :
    merge_similar_guesses choose "a" fuel ambiguousTriple = .err .outOfFuel := by
  induction fuel with
  | zero => rfl
  | succ n ih =>
    have hstep : merge_similar_guesses choose "a" (n + 1) ambiguousTriple =
        merge_similar_guesses choose "a" n ambiguousTriple := rfl
    rw [hstep]
    exact ih

/-- C2: `merge_append_guesses` raises TypeError as soon as a subsequent
`prop`-carrying guess holds any other property, because the collision
branch formats a two-tuple into a one-placeholder warning string
(guess.py:217) — while a list whose extra carriers hold only `prop` is
merged fine. -/
theorem merge_append_guesses_extra_property_raises :
    merge_append_guesses [Guess.ofDict [("episodeNumber", .int 1)] (mkRat 5 10),
        Guess.ofDict [("episodeNumber", .int 2), ("title", .str "x")] (mkRat 5 10)]
      "episodeNumber" = .err .typeError ∧
    merge_append_guesses [Guess.ofDict [("episodeNumber", .int 1)] (mkRat 5 10),
        Guess.ofDict [("episodeNumber", .int 2)] (mkRat 5 10)] "episodeNumber" =
      .ok [⟨[("episodeNumber", .list [.int 1, .int 2])], [("episodeNumber", mkRat 5 10)]⟩] := by
  constructor
  · decide
  · decide

/-! ### Further dict lemmas for C9, C10 and C1 -/

theorem hasKey_cons {α : Type} (kv : String × α) (t : List (String × α)) (k : String) :
    hasKey (kv :: t) k = ((kv.1 == k) || hasKey t k) := by
  by_cases h : kv.1 = k <;> simp [hasKey, lookup, h]

theorem hasKey_insertKV {α : Type} (l : List (String × α)) (k k' : String) (v : α) :
    hasKey (insertKV l k v) k' = ((k' == k) || hasKey l k') := by
  by_cases h : k' = k
  · subst h
    simp [hasKey, lookup_insertKV_self]
  · simp [hasKey, lookup_insertKV_ne _ _ _ _ h, h]

theorem hasKey_of_mem {α : Type} {l : List (String × α)} {kv : String × α}
    (h : kv ∈ l) : hasKey l kv.1 = true :=
  hasKey_of_mem_keys (List.mem_map_of_mem Prod.fst h)

theorem wfConfB_pt2 {g : Guess} (h : wfConfB g = true) :
    ∀ k, hasKey g.data k = true → hasKey g.conf k = true := by
  intro k hk
  obtain ⟨c, hc⟩ := wfConfB_pt h hk
  simp [hasKey, hc]

theorem wfConfB_of_pt {g : Guess}
    (h : ∀ k, hasKey g.data k = true → hasKey g.conf k = true) : wfConfB g = true := by
  rw [wfConfB, List.all_eq_true]
  intro kv hkv
  exact h kv.1 (hasKey_of_mem hkv)

theorem hasKey_foldl_insert {α : Type} :
    ∀ (l : List (String × α)) (acc : List (String × α)) (k : String),
      hasKey (l.foldl (fun a kv => insertKV a kv.1 kv.2) acc) k =
        (hasKey acc k || hasKey l k) := by
  intro l
  induction l with
  | nil => simp [hasKey, lookup]
  | cons kv t ih =>
    intro acc k
    rw [List.foldl_cons, ih, hasKey_insertKV, hasKey_cons]
    by_cases h : k = kv.1
    · subst h
      simp
    · have h1 : (k == kv.1) = false := by simp [h]
      have h2 : (kv.1 == k) = false := by simp [Ne.symm h]
      rw [h1, h2]
      simp

theorem hasKey_foldl_insert_keys (c1 : Rat) :
    ∀ (ks : List String) (acc : List (String × Rat)) (k : String),
      hasKey (ks.foldl (fun a kk => insertKV a kk c1) acc) k = true ↔
        (hasKey acc k = true ∨ k ∈ ks) := by
  intro ks
  induction ks with
  | nil => simp
  | cons k0 t ih =>
    intro acc k
    rw [List.foldl_cons, ih, hasKey_insertKV]
    by_cases h : k = k0
    · subst h
      simp
    · have h1 : (k == k0) = false := by simp [h]
      rw [h1]
      simp [h]

theorem updateConfLoop_spec (other : Guess) :
    ∀ (ks : List String) (acc : List (String × Rat)),
      (∀ k ∈ ks, ∃ c, lookup other.conf k = some c) →
      ∃ cf, Guess.updateConfLoop other ks acc = some cf ∧
        (∀ k, hasKey acc k = true → hasKey cf k = true) ∧
        (∀ k ∈ ks, hasKey cf k = true) := by
  intro ks
  induction ks with
  | nil =>
    intro acc _
    exact ⟨acc, rfl, fun _ h => h, by simp⟩
  | cons k0 t ih =>
    intro acc hks
    obtain ⟨c, hc⟩ := hks k0 (by simp)
    have hks' : ∀ k ∈ t, ∃ c, lookup other.conf k = some c :=
      fun k hk => hks k (by simp [hk])
    obtain ⟨cf, hcf, hpres, hmem⟩ := ih (insertKV acc k0 c) hks'
    refine ⟨cf, ?_, ?_, ?_⟩
    · rw [Guess.updateConfLoop, hc]
      exact hcf
    · intro k hk
      apply hpres
      rw [hasKey_insertKV]
      simp [hk]
    · intro k hk
      rcases List.mem_cons.mp hk with rfl | hkt
      · apply hpres
        rw [hasKey_insertKV]
        simp
      · exact hmem k hkt

theorem update_preserves_wf (g other : Guess) (c0 : Option Rat)
    (hg : wfConfB g = true) (ho : wfConfB other = true) :
    ∃ r, g.update other c0 = some r ∧ wfConfB r = true := by
  have hks : ∀ k ∈ other.keys, ∃ c, lookup other.conf k = some c :=
    fun k hk => wfConfB_pt ho (hasKey_of_mem_keys hk)
  obtain ⟨cf, hcf, hpres, hmem⟩ := updateConfLoop_spec other other.keys g.conf hks
  have hdata : ∀ k, hasKey (other.data.foldl (fun a kv => insertKV a kv.1 kv.2) g.data)
      k = true → hasKey g.data k = true ∨ hasKey other.data k = true := by
    intro k hk
    rw [hasKey_foldl_insert] at hk
    rcases Bool.or_eq_true_iff.mp hk with h | h
    · exact Or.inl h
    · exact Or.inr h
  have hcfk : ∀ k, hasKey g.data k = true ∨ hasKey other.data k = true →
      hasKey cf k = true := by
    intro k hk
    rcases hk with h | h
    · exact hpres k (wfConfB_pt2 hg k h)
    · exact hmem k (mem_keys_of_hasKey h)
  cases c0 with
  | none =>
    refine ⟨_, by unfold Guess.update; rw [hcf], wfConfB_of_pt ?_⟩
    intro k hk
    exact hcfk k (hdata k hk)
  | some c1 =>
    refine ⟨_, by unfold Guess.update; rw [hcf], wfConfB_of_pt ?_⟩
    intro k hk
    rw [hasKey_foldl_insert_keys]
    rcases hdata k hk with h | h
    · exact Or.inl (hcfk k (Or.inl h))
    · exact Or.inr (mem_keys_of_hasKey h)

theorem uhc_preserves_wf (g other : Guess) (hnd : other.keys.Nodup)
    (hg : wfConfB g = true) (ho : wfConfB other = true) :
    ∃ r, g.updateHighestConfidence other = some r ∧ wfConfB r = true := by
  obtain ⟨r, hloop, hout, hin⟩ := uhcLoop_spec other
    (fun k hk => wfConfB_pt ho hk) other.keys g hnd
    (fun k hk => hasKey_of_mem_keys hk)
    (fun k _ hk => wfConfB_pt hg hk)
  refine ⟨r, hloop, wfConfB_of_pt ?_⟩
  intro k hk
  by_cases hother : hasKey other.data k = true
  · have hmem := mem_keys_of_hasKey hother
    rcases hkept : keptByHighest g other k with _ | _
    · obtain ⟨hd, hc⟩ := (hin k hmem).2 hkept
      rw [hasKey, hc, ← hasKey]
      apply wfConfB_pt2 ho k hother
    · obtain ⟨hd, hc⟩ := (hin k hmem).1 hkept
      rw [hasKey, hc, ← hasKey]
      apply wfConfB_pt2 hg k
      rw [hasKey, ← hd, ← hasKey]
      exact hk
  · have hmem : k ∉ other.keys := fun hm => hother (hasKey_of_mem_keys hm)
    obtain ⟨hd, hc⟩ := hout k hmem
    rw [hasKey, hc, ← hasKey]
    apply wfConfB_pt2 hg k
    rw [hasKey, ← hd, ← hasKey]
    exact hk

/-! ### The merge functions preserve the confidence-entry invariant -/

theorem hasKey_eraseKV_self {α : Type} (l : List (String × α)) (k : String) :
    hasKey (eraseKV l k) k = false := by
  simp [hasKey, lookup_eraseKV_self]

theorem hasKey_eraseKV_ne {α : Type} (l : List (String × α)) {k k' : String}
    (h : k' ≠ k) : hasKey (eraseKV l k) k' = hasKey l k' := by
  simp [hasKey, lookup_eraseKV_ne _ _ _ h]

theorem keys_eraseKV_nodup {α : Type} {l : List (String × α)} (k : String)
    (h : (l.map Prod.fst).Nodup) : ((eraseKV l k).map Prod.fst).Nodup :=
  List.Nodup.sublist ((List.filter_sublist _).map _) h


theorem set_with_conf_preserves_wf (g : Guess) (k : String) (v : Value) (c : Rat)
    (hwf : wfConfB g = true) : wfConfB (g.set k v (some c)) = true := by
  apply wfConfB_of_pt
  intro k2 hk2
  show hasKey (insertKV g.conf k c) k2 = true
  rw [hasKey_insertKV]
  by_cases h : k2 = k
  · simp [h]
  · have h1 : (k2 == k) = false := by simp [h]
    rw [h1]
    have hk3 : hasKey g.data k2 = true := by
      rw [show (g.set k v (some c)).data = insertKV g.data k v from rfl,
        hasKey_insertKV, h1] at hk2
      simpa using hk2
    simpa using wfConfB_pt2 hwf k2 hk3

theorem setItem_existing_preserves_wf (g : Guess) (k : String) (v : Value)
    (hwf : wfConfB g = true) (hk : hasKey g.data k = true) :
    wfConfB (g.setItem k v) = true := by
  apply wfConfB_of_pt
  intro k2 hk2
  show hasKey g.conf k2 = true
  rw [show (g.setItem k v).data = insertKV g.data k v from rfl, hasKey_insertKV] at hk2
  by_cases h : k2 = k
  · subst h
    exact wfConfB_pt2 hwf k2 hk
  · have h1 : (k2 == k) = false := by simp [h]
    rw [h1] at hk2
    exact wfConfB_pt2 hwf k2 (by simpa using hk2)

theorem setItem_setConfidence_preserves_wf (g : Guess) (k : String) (v : Value)
    (c : Rat) (hwf : wfConfB g = true) :
    wfConfB ((g.setItem k v).setConfidence k c) = true :=
  set_with_conf_preserves_wf g k v c hwf

theorem delItem_preserves_wf (g : Guess) (k : String) (hwf : wfConfB g = true) :
    wfConfB (g.delItem k) = true := by
  apply wfConfB_of_pt
  intro k2 hk2
  show hasKey g.conf k2 = true
  by_cases h : k2 = k
  · subst h
    rw [show (g.delItem k2).data = eraseKV g.data k2 from rfl,
      hasKey_eraseKV_self] at hk2
    exact Bool.noConfusion hk2
  · rw [show (g.delItem k).data = eraseKV g.data k from rfl,
      hasKey_eraseKV_ne _ h] at hk2
    exact wfConfB_pt2 hwf k2 hk2

theorem mem_removeFirstEq {tgt g : Guess} :
    ∀ {l : List Guess}, g ∈ removeFirstEq l tgt → g ∈ l := by
  intro l
  induction l with
  | nil => intro h; simp [removeFirstEq] at h
  | cons x t ih =>
    intro h
    rw [removeFirstEq] at h
    by_cases hd : dictBeq x.data tgt.data = true
    · rw [if_pos hd] at h
      exact List.mem_cons_of_mem x h
    · rw [if_neg hd] at h
      rcases List.mem_cons.mp h with rfl | h2
      · simp
      · simpa using Or.inr (ih h2)

theorem mem_replaceFirstCarrier {prop : String} {gr g : Guess} :
    ∀ {l : List Guess}, g ∈ replaceFirstCarrier prop gr l → g = gr ∨ g ∈ l := by
  intro l
  induction l with
  | nil => intro h; simp [replaceFirstCarrier] at h
  | cons x t ih =>
    intro h
    rw [replaceFirstCarrier] at h
    by_cases hx : x.hasProp prop = true
    · rw [if_pos hx] at h
      rcases List.mem_cons.mp h with rfl | h2
      · exact Or.inl rfl
      · exact Or.inr (by simp [h2])
    · rw [if_neg hx] at h
      rcases List.mem_cons.mp h with rfl | h2
      · exact Or.inr (by simp)
      · rcases ih h2 with h3 | h3
        · exact Or.inl h3
        · exact Or.inr (by simp [h3])

theorem mem_replaceFirstTwoCarriers {prop : String} {g1 g2 g : Guess} :
    ∀ {l : List Guess}, g ∈ replaceFirstTwoCarriers prop g1 g2 l →
      g = g1 ∨ g = g2 ∨ g ∈ l := by
  intro l
  induction l with
  | nil => intro h; simp [replaceFirstTwoCarriers] at h
  | cons x t ih =>
    intro h
    rw [replaceFirstTwoCarriers] at h
    by_cases hx : x.hasProp prop = true
    · rw [if_pos hx] at h
      rcases List.mem_cons.mp h with rfl | h2
      · exact Or.inl rfl
      · rcases mem_replaceFirstCarrier h2 with h3 | h3
        · exact Or.inr (Or.inl h3)
        · exact Or.inr (Or.inr (by simp [h3]))
    · rw [if_neg hx] at h
      rcases List.mem_cons.mp h with rfl | h2
      · exact Or.inr (Or.inr (by simp))
      · rcases ih h2 with h3 | h3 | h3
        · exact Or.inl h3
        · exact Or.inr (Or.inl h3)
        · exact Or.inr (Or.inr (by simp [h3]))

theorem nocheck_preserves_wf {guesses l2 : List Guess} {prop : String}
    {choose : Chooser} (hwf : ∀ g ∈ guesses, wfConfB g = true)
    (h : merge_similar_guesses_nocheck guesses prop choose = .ok l2) :
    ∀ g ∈ l2, wfConfB g = true := by
  unfold merge_similar_guesses_nocheck at h
  split at h
  · rename_i g1 g2 rest heq
    have hg1 : g1 ∈ guesses := by
      have : g1 ∈ guesses.filter (fun g => g.hasProp prop) := by
        rw [heq]
        simp
      exact List.mem_of_mem_filter this
    have hg2 : g2 ∈ guesses := by
      have : g2 ∈ guesses.filter (fun g => g.hasProp prop) := by
        rw [heq]
        simp
      exact List.mem_of_mem_filter this
    split at h
    · cases h
      exact hwf
    · split at h
      · rename_i v1 v2 c1 c2 hv1 hv2 hc1 hc2
        simp only [] at h
        have hwf2 : wfConfB ((g2.setItem prop ((choose (v1, c1) (v2, c2)).1)).setConfidence
            prop ((choose (v1, c1) (v2, c2)).2)) = true :=
          setItem_setConfidence_preserves_wf g2 prop _ _ (hwf g2 hg2)
        rcases hup : g1.update ((g2.setItem prop
            ((choose (v1, c1) (v2, c2)).1)).setConfidence prop
            ((choose (v1, c1) (v2, c2)).2)) none with _ | g1x <;> rw [hup] at h
        · cases h
        · obtain ⟨r2, hr2, hr2wf⟩ :=
            update_preserves_wf g1 _ none (hwf g1 hg1) hwf2
          rw [hup] at hr2
          injection hr2 with hr2
          cases h
          intro g hg
          rcases mem_replaceFirstTwoCarriers (mem_removeFirstEq hg) with h3 | h3 | h3
          · rw [h3, hr2]
            exact hr2wf
          · rw [h3]
            exact hwf2
          · exact hwf g h3
      · cases h
  · cases h

theorem merge_similar_preserves_wf (choose : Chooser) (prop : String) :
    ∀ (fuel : Nat) (guesses l2 : List Guess),
      (∀ g ∈ guesses, wfConfB g = true) →
      merge_similar_guesses choose prop fuel guesses = .ok l2 →
      ∀ g ∈ l2, wfConfB g = true := by
  intro fuel
  induction fuel with
  | zero =>
    intro guesses l2 _ h
    cases h
  | succ n ih =>
    intro guesses l2 hwf h
    rw [merge_similar_guesses] at h
    split at h
    · cases h
      exact hwf
    · split at h
      · exact nocheck_preserves_wf hwf h
      · split at h
        · cases h
        · rename_i l3 hno
          exact ih l3 l2 (nocheck_preserves_wf hwf hno) h

theorem appendToProp_wf {merged : Guess} {prop : String} {v : Value} {m2 : Guess}
    (hwf : wfConfB merged = true) (h : appendToProp merged prop v = .ok m2) :
    wfConfB m2 = true := by
  unfold appendToProp at h
  split at h
  · rename_i l heq
    cases h
    apply setItem_existing_preserves_wf _ _ _ hwf
    rw [hasKey, show lookup merged.data prop = some (.list l) from heq]
    rfl
  · cases h
  · cases h

theorem mergeAppendInner_wf (prop : String) (m : Guess) :
    ∀ (ks : List String) (merged merged2 : Guess),
      wfConfB merged = true →
      mergeAppendInner prop m merged ks = .ok merged2 →
      wfConfB merged2 = true := by
  intro ks
  induction ks with
  | nil =>
    intro merged merged2 hwf h
    cases h
    exact hwf
  | cons p2 t ih =>
    intro merged merged2 hwf h
    rw [mergeAppendInner] at h
    split at h
    · split at h
      · rename_i v hv
        split at h
        · rename_i m3 hap
          exact ih m3 merged2 (appendToProp_wf hwf hap) h
        · cases h
      · cases h
    · split at h
      · cases h
      · rename_i hnotin
        split at h
        · rename_i v hv
          exfalso
          apply hnotin
          rw [hasKey, show lookup m.data p2 = some v from hv]
          rfl
        · cases h

theorem mergeAppendOuter_wf (prop : String) :
    ∀ (rest : List Guess) (merged : Guess) (gss : List Guess) (res : Guess × List Guess),
      wfConfB merged = true →
      (∀ g ∈ gss, wfConfB g = true) →
      mergeAppendOuter prop merged rest gss = .ok res →
      wfConfB res.1 = true ∧ ∀ g ∈ res.2, wfConfB g = true := by
  intro rest
  induction rest with
  | nil =>
    intro merged gss res hwf hg h
    cases h
    exact ⟨hwf, hg⟩
  | cons m t ih =>
    intro merged gss res hwf hg h
    rw [mergeAppendOuter] at h
    split at h
    · cases h
    · rename_i merged3 hin
      exact ih merged3 _ res (mergeAppendInner_wf prop m m.keys merged merged3 hwf hin)
        (fun g hgm => hg g (mem_removeFirstEq hgm)) h

theorem merge_append_preserves_wf {guesses l2 : List Guess} {prop : String}
    (hwf : ∀ g ∈ guesses, wfConfB g = true)
    (h : merge_append_guesses guesses prop = .ok l2) :
    ∀ g ∈ l2, wfConfB g = true := by
  unfold merge_append_guesses at h
  split at h
  · cases h
    exact hwf
  · rename_i merged0 rest heq
    have hm0 : merged0 ∈ guesses :=
      List.mem_of_mem_filter (l := guesses) (by rw [heq]; simp)
    have hm0p : merged0.hasProp prop = true := by
      have hmem : merged0 ∈ guesses.filter (fun g => g.hasProp prop) := by
        rw [heq]
        simp
      exact (List.mem_filter.mp hmem).2
    split at h
    · cases h
    · rename_i v0 hv0
      split at h
      · cases h
      · rename_i mergedF remaining hout
        cases h
        obtain ⟨hwfF, hrem⟩ := mergeAppendOuter_wf prop rest _ guesses _
          (setItem_existing_preserves_wf merged0 prop _ (hwf merged0 hm0) hm0p) hwf hout
        intro g hg
        rcases mem_replaceFirstCarrier hg with h3 | h3
        · rw [h3]
          exact hwfF
        · exact hrem g h3

theorem mergeAllAppendLoop_wf :
    ∀ (append : List String) (result g result2 g2 : Guess),
      wfConfB result = true → wfConfB g = true → g.keys.Nodup →
      mergeAllAppendLoop result g append = .ok (result2, g2) →
      wfConfB result2 = true ∧ wfConfB g2 = true ∧ g2.keys.Nodup := by
  intro append
  induction append with
  | nil =>
    intro result g result2 g2 hr hg hnd h
    cases h
    exact ⟨hr, hg, hnd⟩
  | cons prop t ih =>
    intro result g result2 g2 hr hg hnd h
    rw [mergeAllAppendLoop] at h
    split at h
    · split at h
      · cases h
      · rename_i gv hgv
        split at h
        · rename_i l hbase
          split at h
          · cases h
          · rename_i c hcc
            exact ih _ _ result2 g2 (set_with_conf_preserves_wf _ _ _ _ hr)
              (delItem_preserves_wf _ _ hg) (keys_eraseKV_nodup _ hnd) h
        · cases h
    · exact ih _ _ result2 g2 hr hg hnd h

theorem mergeAllMainLoop_wf (append : List String) :
    ∀ (gs : List Guess) (result r : Guess),
      wfConfB result = true →
      (∀ g ∈ gs, wfConfB g = true ∧ g.keys.Nodup) →
      mergeAllMainLoop append result gs = .ok r →
      wfConfB r = true := by
  intro gs
  induction gs with
  | nil =>
    intro result r hr _ h
    cases h
    exact hr
  | cons g t ih =>
    intro result r hr hgs h
    rw [mergeAllMainLoop] at h
    split at h
    · cases h
    · rename_i result3 g3 happ
      obtain ⟨hr3, hg3, hnd3⟩ := mergeAllAppendLoop_wf append result g result3 g3 hr
        (hgs g (by simp)).1 (hgs g (by simp)).2 happ
      split at h
      · cases h
      · rename_i r1 huhc
        obtain ⟨r2, hr2, hr2wf⟩ := uhc_preserves_wf result3 g3 hnd3 hr3 hg3
        rw [huhc] at hr2
        injection hr2 with hr2
        refine ih r1 r ?_ (fun g2 hg2 => hgs g2 (by simp [hg2])) h
        rw [hr2]
        exact hr2wf

theorem mergeAllPrune_wf :
    ∀ (ks : List String) (result r : Guess), wfConfB result = true →
      mergeAllPrune result ks = .ok r → wfConfB r = true := by
  intro ks
  induction ks with
  | nil =>
    intro result r hr h
    cases h
    exact hr
  | cons p t ih =>
    intro result r hr h
    rw [mergeAllPrune] at h
    split at h
    · cases h
    · rename_i c hc
      split at h
      · exact ih _ r (delItem_preserves_wf _ _ hr) h
      · exact ih _ r hr h

theorem mergeAllDedup_wf :
    ∀ (props : List String) (result r : Guess), wfConfB result = true →
      mergeAllDedup result props = .ok r → wfConfB r = true := by
  intro props
  induction props with
  | nil =>
    intro result r hr h
    cases h
    exact hr
  | cons prop t ih =>
    intro result r hr h
    rw [mergeAllDedup] at h
    split at h
    · rename_i hhas
      split at h
      · cases h
      · rename_i v hv
        split at h
        · cases h
        · rename_i l2 hset
          exact ih _ r (setItem_existing_preserves_wf _ _ _ hr hhas) h
    · exact ih _ r hr h

theorem merge_all_preserves_wf {guesses : List Guess} {append : List String} {r : Guess}
    (hwf : ∀ g ∈ guesses, wfConfB g = true ∧ g.keys.Nodup)
    (h : merge_all guesses append = .ok r) : wfConfB r = true := by
  unfold merge_all at h
  split at h
  · cases h
    rfl
  · rename_i g0 rest
    split at h
    · cases h
    · rename_i r1 hmain
      split at h
      · cases h
      · rename_i r2 hprune
        exact mergeAllDedup_wf append r2 r
          (mergeAllPrune_wf r1.keys r1 r2
            (mergeAllMainLoop_wf append rest g0 r1 (hwf g0 (by simp)).1
              (fun g hg => hwf g (by simp [hg])) hmain) hprune) h

/-! ### C9, C10: the confidence-entry invariant and `confidence` failure -/

/-- C9 counterexample: `set` without a confidence argument on a fresh key
leaves the key without any confidence entry, so `confidence` raises
KeyError (`none`) instead of returning the claimed default 0. -/
theorem set_without_confidence_no_default_counterexample :
    ((Guess.ofDict [] 0).set "x" (.int 1) none).hasProp "x" = true ∧
    ((Guess.ofDict [] 0).set "x" (.int 1) none).confidence "x" = none := by decide

/-- C9 amended: construction gives every initial key the supplied
confidence; `set` with an explicit confidence, `set` on an existing key,
`update` and `update_highest_confidence` preserve the every-key-has-a-
confidence invariant, and so do the merge functions — every completing
run of `_merge_similar_guesses_nocheck`, `merge_similar_guesses` and
`merge_append_guesses` returns only invariant-satisfying guesses, and
`merge_all` on dict-shaped input returns an invariant-satisfying result;
but `set` without a confidence argument on a previously absent key
leaves no confidence entry, so `confidence` then fails with KeyError
rather than returning 0. -/
theorem guess_confidence_invariant_amended :
    (∀ d c k, hasKey (Guess.ofDict d c).data k = true →
      (Guess.ofDict d c).confidence k = some c) ∧
    (∀ (g : Guess) k v c, wfConfB g = true → wfConfB (g.set k v (some c)) = true) ∧
    (∀ (g : Guess) k v, wfConfB g = true → g.hasProp k = true →
      wfConfB (g.set k v none) = true) ∧
    (∀ (g other : Guess) c0, wfConfB g = true → wfConfB other = true →
      ∃ r, g.update other c0 = some r ∧ wfConfB r = true) ∧
    (∀ (g other : Guess), other.keys.Nodup → wfConfB g = true → wfConfB other = true →
      ∃ r, g.updateHighestConfidence other = some r ∧ wfConfB r = true) ∧
    (∀ (g : Guess) k v, hasKey g.conf k = false →
      (g.set k v none).confidence k = none) ∧
    (∀ (guesses l2 : List Guess) (prop : String) (choose : Chooser),
      (∀ g ∈ guesses, wfConfB g = true) →
      merge_similar_guesses_nocheck guesses prop choose = .ok l2 →
      ∀ g ∈ l2, wfConfB g = true) ∧
    (∀ (choose : Chooser) (prop : String) (fuel : Nat) (guesses l2 : List Guess),
      (∀ g ∈ guesses, wfConfB g = true) →
      merge_similar_guesses choose prop fuel guesses = .ok l2 →
      ∀ g ∈ l2, wfConfB g = true) ∧
    (∀ (guesses l2 : List Guess) (prop : String),
      (∀ g ∈ guesses, wfConfB g = true) →
      merge_append_guesses guesses prop = .ok l2 →
      ∀ g ∈ l2, wfConfB g = true) ∧
    (∀ (guesses : List Guess) (append : List String) (r : Guess),
      (∀ g ∈ guesses, wfConfB g = true ∧ g.keys.Nodup) →
      merge_all guesses append = .ok r → wfConfB r = true) := by
  refine ⟨?_, ?_, ?_, ?_, ?_, ?_, ?_, ?_, ?_, ?_⟩
  · intro d c k hk
    obtain ⟨v, hv⟩ := lookup_isSome_of_hasKey hk
    unfold Guess.confidence Guess.ofDict
    rw [lookup_map_const]
    have hv' : lookup d k = some v := hv
    rw [hv']
    rfl
  · intro g k v c hwf
    apply wfConfB_of_pt
    intro k' hk'
    rw [Guess.set] at hk' ⊢
    rw [hasKey_insertKV] at hk' ⊢
    by_cases h : k' = k
    · simp [h]
    · have hne : (k' == k) = false := by simp [h]
      rw [hne] at hk' ⊢
      simpa using wfConfB_pt2 hwf k' (by simpa using hk')
  · intro g k v hwf hkey
    apply wfConfB_of_pt
    intro k' hk'
    rw [Guess.set] at hk' ⊢
    rw [hasKey_insertKV] at hk'
    by_cases h : k' = k
    · subst h
      exact wfConfB_pt2 hwf k' hkey
    · have hne : (k' == k) = false := by simp [h]
      rw [hne] at hk'
      exact wfConfB_pt2 hwf k' (by simpa using hk')
  · intro g other c0 hg ho
    exact update_preserves_wf g other c0 hg ho
  · intro g other hnd hg ho
    exact uhc_preserves_wf g other hnd hg ho
  · intro g k v h
    exact lookup_none_of_not_hasKey h
  · intro guesses l2 prop choose hq heq
    exact nocheck_preserves_wf hq heq
  · intro choose prop fuel guesses l2 hq heq
    exact merge_similar_preserves_wf choose prop fuel guesses l2 hq heq
  · intro guesses l2 prop hq heq
    exact merge_append_preserves_wf hq heq
  · intro guesses append r hq heq
    exact merge_all_preserves_wf hq heq

theorem guess_confidence_invariant_amended_witness :
    ((Guess.ofDict [("a", Value.int 1)] (mkRat 1 2)).confidence "a" =
      some (mkRat 1 2)) ∧
    wfConfB ((Guess.ofDict [("a", Value.int 1)] (mkRat 1 2)).set "b" (.int 2)
      (some (mkRat 1 4))) = true ∧
    wfConfB ((Guess.ofDict [("a", Value.int 1)] (mkRat 1 2)).set "a" (.int 2) none) =
      true ∧
    (∃ r, (Guess.ofDict [("a", Value.int 1)] (mkRat 1 2)).update
        (Guess.ofDict [("b", Value.int 2)] (mkRat 1 4)) none = some r ∧
      wfConfB r = true) ∧
    (∃ r, (Guess.ofDict [("a", Value.int 1)] (mkRat 1 2)).updateHighestConfidence
        (Guess.ofDict [("b", Value.int 2)] (mkRat 1 4)) = some r ∧
      wfConfB r = true) ∧
    ((Guess.ofDict [("a", Value.int 1)] (mkRat 1 2)).set "z" (.int 3) none).confidence
      "z" = none ∧
    (∀ g ∈ [(⟨[("a", Value.int 1), ("c", Value.int 7)],
        [("a", mkRat 1 2), ("c", mkRat 1 2)]⟩ : Guess)], wfConfB g = true) ∧
    (∀ g ∈ [(⟨[("a", Value.int 1)], [("a", mkRat 1 2)]⟩ : Guess)],
      wfConfB g = true) ∧
    (∀ g ∈ [(⟨[("episodeNumber", Value.list [.int 1, .int 2])],
        [("episodeNumber", mkRat 5 10)]⟩ : Guess)], wfConfB g = true) ∧
    wfConfB (⟨[("season", Value.int 2), ("episodeNumber", Value.int 13)],
      [("season", mkRat 6 10), ("episodeNumber", mkRat 8 10)]⟩ : Guess) = true := by
  refine ⟨?_, ?_, ?_, ?_, ?_, ?_, ?_, ?_, ?_, ?_⟩
  · exact guess_confidence_invariant_amended.1 _ _ _ (by decide)
  · exact guess_confidence_invariant_amended.2.1 _ _ _ _ (by decide)
  · exact guess_confidence_invariant_amended.2.2.1 _ _ _ (by decide) (by decide)
  · exact guess_confidence_invariant_amended.2.2.2.1 _ _ none (by decide) (by decide)
  · exact guess_confidence_invariant_amended.2.2.2.2.1 _ _ (by decide) (by decide)
      (by decide)
  · exact guess_confidence_invariant_amended.2.2.2.2.2.1 _ _ _ (by decide)
  · exact guess_confidence_invariant_amended.2.2.2.2.2.2.1
      [Guess.ofDict [("a", .int 1), ("c", .int 7)] (mkRat 1 2),
       Guess.ofDict [("a", .int 2)] (mkRat 3 5)]
      [⟨[("a", .int 1), ("c", .int 7)], [("a", mkRat 1 2), ("c", mkRat 1 2)]⟩]
      "a" (fun p _ => p) (by decide) (by decide)
  · exact guess_confidence_invariant_amended.2.2.2.2.2.2.2.1 (fun p _ => p) "a" 2
      [Guess.ofDict [("a", .int 1)] (mkRat 1 2),
       Guess.ofDict [("a", .int 2)] (mkRat 1 2),
       Guess.ofDict [("a", .int 3)] (mkRat 1 2)]
      [⟨[("a", .int 1)], [("a", mkRat 1 2)]⟩] (by decide) (by decide)
  · exact guess_confidence_invariant_amended.2.2.2.2.2.2.2.2.1
      [Guess.ofDict [("episodeNumber", .int 1)] (mkRat 5 10),
       Guess.ofDict [("episodeNumber", .int 2)] (mkRat 5 10)]
      [⟨[("episodeNumber", .list [.int 1, .int 2])], [("episodeNumber", mkRat 5 10)]⟩]
      "episodeNumber" (by decide) (by decide)
  · exact guess_confidence_invariant_amended.2.2.2.2.2.2.2.2.2
      [Guess.ofDict [("season", .int 2)] (mkRat 6 10),
       Guess.ofDict [("episodeNumber", .int 13)] (mkRat 8 10)] []
      ⟨[("season", .int 2), ("episodeNumber", .int 13)],
       [("season", mkRat 6 10), ("episodeNumber", mkRat 8 10)]⟩
      (by decide) (by decide)

/-- C10 counterexample: after `merge_all` prunes the low-confidence
`episodeNumber` (deleting only the value entry), the key is absent from
the value mapping yet `confidence` still returns its stale value instead
of failing with KeyError. -/
theorem confidence_after_prune_counterexample :
    merge_all [Guess.ofDict [("episodeNumber", .int 27)] (mkRat 2 100)] [] =
      .ok ⟨[], [("episodeNumber", mkRat 2 100)]⟩ ∧
    (Guess.mk [] [("episodeNumber", mkRat 2 100)]).hasProp "episodeNumber" = false ∧
    (Guess.mk [] [("episodeNumber", mkRat 2 100)]).confidence "episodeNumber" =
      some (mkRat 2 100) := by decide

/-- C10 amended: `confidence` fails with KeyError exactly on keys missing
from the confidence mapping; for a freshly constructed guess the two
mappings share keys, so a key absent from the value mapping does fail;
but a key whose value entry was deleted later (merge_all's pruning)
keeps its confidence entry and `confidence` still answers. -/
theorem confidence_keyerror_amended :
    (∀ (g : Guess) k, hasKey g.conf k = false → g.confidence k = none) ∧
    (∀ d c k, hasKey (Guess.ofDict d c).data k = false →
      (Guess.ofDict d c).confidence k = none) ∧
    (∃ r, merge_all [Guess.ofDict [("episodeNumber", .int 27)] (mkRat 2 100)] [] =
        .ok r ∧ r.hasProp "episodeNumber" = false ∧
        r.confidence "episodeNumber" = some (mkRat 2 100)) := by
  refine ⟨?_, ?_, ?_⟩
  · intro g k h
    exact lookup_none_of_not_hasKey h
  · intro d c k h
    unfold Guess.confidence Guess.ofDict
    rw [lookup_map_const]
    have h' : lookup d k = none := lookup_none_of_not_hasKey h
    rw [h']
    rfl
  · exact ⟨⟨[], [("episodeNumber", mkRat 2 100)]⟩, by decide, by decide, by decide⟩

theorem confidence_keyerror_amended_witness :
    (Guess.mk [("a", Value.int 1)] []).confidence "b" = none ∧
    (Guess.ofDict [("a", Value.int 1)] (mkRat 1 2)).confidence "b" = none := by
  constructor
  · exact confidence_keyerror_amended.1 _ "b" (by decide)
  · exact confidence_keyerror_amended.2.1 _ _ "b" (by decide)

/-! ### C1: `merge_all` with an append property -/

theorem appendValues_cons {g : Guess} {t : List Guess} {prop : String} {v : Value}
    (h : g.get? prop = some v) :
    appendValues (g :: t) prop = v :: appendValues t prop := by
  simp [appendValues, h]

theorem mergeAllAppendLoop_single (prop : String) (result g : Guess) (gv : Value)
    (l : List Value) (c : Rat)
    (hg : lookup g.data prop = some gv)
    (hbase : (match lookup result.data prop with
              | some v => v
              | none => Value.list []) = Value.list l)
    (hc : lookup g.conf prop = some c) :
    mergeAllAppendLoop result g [prop] =
      .ok (result.set prop (.list (l ++ [gv])) (some c), g.delItem prop) := by
  have hhas : g.hasProp prop = true := by simp [Guess.hasProp, hasKey, hg]
  simp only [mergeAllAppendLoop, hhas, if_pos, Guess.get?, hg, Guess.confidence, hc,
    hbase]

theorem mergeAllPrune_noop :
    ∀ (ks : List String) (result : Guess),
      (∀ p ∈ ks, ∃ c, lookup result.conf p = some c ∧ ¬(c < mkRat 5 100)) →
      mergeAllPrune result ks = .ok result := by
  intro ks
  induction ks with
  | nil => intro result _; rfl
  | cons p t ih =>
    intro result h
    obtain ⟨c, hc, hcge⟩ := h p (by simp)
    have hval : mergeAllPrune result (p :: t) =
        if c < mkRat 5 100 then mergeAllPrune (result.delItem p) t
        else mergeAllPrune result t := by
      rw [mergeAllPrune, Guess.confidence, hc]
    rw [hval, if_neg hcge]
    exact ih result (fun q hq => h q (by simp [hq]))

theorem mergeAllMainLoop_spec (prop : String) :
    ∀ (gs : List Guess) (result : Guess) (l0 : List Value),
      (∀ g ∈ gs, ∃ v, lookup g.data prop = some v) →
      (∀ g ∈ gs, wfMinPt g) →
      (∀ g ∈ gs, g.keys.Nodup) →
      List.Pairwise (fun a b => ∀ k, k ≠ prop →
        hasKey a.data k = true → hasKey b.data k = false) gs →
      (∀ g ∈ gs, ∀ k, k ≠ prop →
        hasKey result.data k = true → hasKey g.data k = false) →
      wfMinPt result →
      (lookup result.data prop = some (.list l0) ∨
        (hasKey result.data prop = false ∧ l0 = [])) →
      ∃ r, mergeAllMainLoop [prop] result gs = .ok r ∧
        (lookup r.data prop = some (.list (l0 ++ appendValues gs prop)) ∨
          (gs = [] ∧ lookup r.data prop = lookup result.data prop)) ∧
        wfMinPt r ∧
        (∀ k, k ≠ prop → (∀ g ∈ gs, hasKey g.data k = false) →
          lookup r.data k = lookup result.data k) ∧
        (∀ k, k ≠ prop → ∀ g ∈ gs, hasKey g.data k = true →
          lookup r.data k = lookup g.data k) := by
  intro gs
  induction gs with
  | nil =>
    intro result l0 _ _ _ _ _ hrwf _
    exact ⟨result, rfl, Or.inr ⟨rfl, rfl⟩, hrwf, fun k _ _ => rfl, by simp⟩
  | cons g t ih =>
    intro result l0 hcar hwfg hnd hpair hdisjr hrwf hrprop
    obtain ⟨v, hv⟩ := hcar g (by simp)
    obtain ⟨c, hc, hcge⟩ := hwfg g (by simp) prop v hv
    have hbase : (match lookup result.data prop with
        | some w => w
        | none => Value.list []) = Value.list l0 := by
      rcases hrprop with h | ⟨h, rfl⟩
      · rw [h]
      · rw [lookup_none_of_not_hasKey h]
    have happend := mergeAllAppendLoop_single prop result g v l0 c hv hbase hc
    set result' := result.set prop (.list (l0 ++ [v])) (some c) with hresult'
    set g' := g.delItem prop with hgdef
    have hrd : result'.data = insertKV result.data prop (Value.list (l0 ++ [v])) := rfl
    have hrc : result'.conf = insertKV result.conf prop c := rfl
    have hgd : g'.data = eraseKV g.data prop := rfl
    have hgc : g'.conf = g.conf := rfl
    have hg'prop : hasKey g'.data prop = false := by
      rw [hgd]
      exact hasKey_eraseKV_self _ _
    have hg'ne : ∀ k, k ≠ prop → hasKey g'.data k = hasKey g.data k := by
      intro k hk
      rw [hgd]
      exact hasKey_eraseKV_ne _ hk
    have hg'lookup : ∀ k, k ≠ prop → lookup g'.data k = lookup g.data k := by
      intro k hk
      rw [hgd]
      exact lookup_eraseKV_ne _ _ _ hk
    have hdisj_g : ∀ k, k ≠ prop → hasKey g.data k = true →
        hasKey result.data k = false := by
      intro k hk hgk
      by_cases h : hasKey result.data k = true
      · have := hdisjr g (by simp) k hk h
        rw [hgk] at this
        exact Bool.noConfusion this
      · simpa using h
    have hrwf' : wfMinPt result' := by
      intro k w hw
      by_cases hk : k = prop
      · subst hk
        refine ⟨c, ?_, hcge⟩
        rw [hrc]
        exact lookup_insertKV_self _ _ _
      · rw [hrd, lookup_insertKV_ne _ _ _ _ hk] at hw
        obtain ⟨c2, hc2, hc2ge⟩ := hrwf k w hw
        refine ⟨c2, ?_, hc2ge⟩
        rw [hrc, lookup_insertKV_ne _ _ _ _ hk]
        exact hc2
    have ho : ∀ k, hasKey g'.data k = true → ∃ c2, lookup g'.conf k = some c2 := by
      intro k hk
      by_cases hkp : k = prop
      · subst hkp
        rw [hg'prop] at hk
        exact Bool.noConfusion hk
      · rw [hg'ne k hkp] at hk
        obtain ⟨w, hw⟩ := lookup_isSome_of_hasKey hk
        obtain ⟨c2, hc2, _⟩ := hwfg g (by simp) k w hw
        exact ⟨c2, by rw [hgc]; exact hc2⟩
    have hnd' : g'.keys.Nodup := by
      rw [Guess.keys, hgd]
      exact keys_eraseKV_nodup prop (hnd g (by simp))
    have hcar' : ∀ k ∈ g'.keys, hasKey g'.data k = true :=
      fun k hk => hasKey_of_mem_keys hk
    have haccwf' : ∀ k ∈ g'.keys, hasKey result'.data k = true →
        ∃ c2, lookup result'.conf k = some c2 := by
      intro k _ hk
      obtain ⟨w, hw⟩ := lookup_isSome_of_hasKey hk
      obtain ⟨c2, hc2, _⟩ := hrwf' k w hw
      exact ⟨c2, hc2⟩
    obtain ⟨r1, hloop1, hout1, hin1⟩ :=
      uhcLoop_spec g' ho g'.keys result' hnd' hcar' haccwf'
    have hpropnot : prop ∉ g'.keys := by
      intro hm
      rw [hasKey_of_mem_keys hm] at hg'prop
      exact Bool.noConfusion hg'prop
    obtain ⟨hr1d_prop, hr1c_prop⟩ := hout1 prop hpropnot
    have hr1prop : lookup r1.data prop = some (.list (l0 ++ [v])) := by
      rw [hr1d_prop, hrd]
      exact lookup_insertKV_self _ _ _
    have hmemkeys : ∀ k, k ≠ prop → hasKey g.data k = true → k ∈ g'.keys := by
      intro k hk hgk
      apply mem_keys_of_hasKey
      rw [hg'ne k hk]
      exact hgk
    have hkeyne : ∀ k, k ∈ g'.keys → k ≠ prop := by
      intro k hm hkp
      exact hpropnot (hkp ▸ hm)
    have hkept_false : ∀ k, k ∈ g'.keys → keptByHighest result' g' k = false := by
      intro k hm
      have hk := hkeyne k hm
      have hgk : hasKey g.data k = true := by
        rw [← hg'ne k hk]
        exact hasKey_of_mem_keys hm
      have hres : hasKey result.data k = false := hdisj_g k hk hgk
      have hres' : hasKey result'.data k = false := by
        rw [hrd, hasKey_insertKV]
        have h1 : (k == prop) = false := by simp [hk]
        rw [h1, hres]
        rfl
      simp [keptByHighest, Guess.hasProp, hres']
    have hr1_carried : ∀ k, k ∈ g'.keys →
        lookup r1.data k = lookup g.data k ∧ lookup r1.conf k = lookup g.conf k := by
      intro k hm
      obtain ⟨hd, hcc⟩ := (hin1 k hm).2 (hkept_false k hm)
      exact ⟨by rw [hd, hg'lookup k (hkeyne k hm)], by rw [hcc, hgc]⟩
    have hr1_out : ∀ k, k ∉ g'.keys → k ≠ prop →
        lookup r1.data k = lookup result.data k ∧
        lookup r1.conf k = lookup result.conf k := by
      intro k hm hk
      obtain ⟨hd, hcc⟩ := hout1 k hm
      constructor
      · rw [hd, hrd, lookup_insertKV_ne _ _ _ _ hk]
      · rw [hcc, hrc, lookup_insertKV_ne _ _ _ _ hk]
    have hr1wf : wfMinPt r1 := by
      intro k w hw
      by_cases hm : k ∈ g'.keys
      · obtain ⟨hd, hcc⟩ := hr1_carried k hm
        rw [hd] at hw
        obtain ⟨c2, hc2, hge2⟩ := hwfg g (by simp) k w hw
        exact ⟨c2, by rw [hcc]; exact hc2, hge2⟩
      · by_cases hk : k = prop
        · subst hk
          refine ⟨c, ?_, hcge⟩
          rw [hr1c_prop, hrc]
          exact lookup_insertKV_self _ _ _
        · obtain ⟨hd, hcc⟩ := hr1_out k hm hk
          rw [hd] at hw
          obtain ⟨c2, hc2, hge2⟩ := hrwf k w hw
          exact ⟨c2, by rw [hcc]; exact hc2, hge2⟩
    have hpairT := List.pairwise_cons.mp hpair
    have hdisjr2 : ∀ h ∈ t, ∀ k, k ≠ prop →
        hasKey r1.data k = true → hasKey h.data k = false := by
      intro h hht k hk hkey
      by_cases hm : k ∈ g'.keys
      · have hgk : hasKey g.data k = true := by
          rw [← hg'ne k hk]
          exact hasKey_of_mem_keys hm
        exact hpairT.1 h hht k hk hgk
      · obtain ⟨hd, _⟩ := hr1_out k hm hk
        unfold hasKey at hkey
        rw [hd] at hkey
        exact hdisjr h (by simp [hht]) k hk hkey
    obtain ⟨r, hloopT, hrpropT, hrwfT, hpresT, hcarryT⟩ :=
      ih r1 (l0 ++ [v])
        (fun h hh => hcar h (by simp [hh]))
        (fun h hh => hwfg h (by simp [hh]))
        (fun h hh => hnd h (by simp [hh]))
        hpairT.2
        hdisjr2
        hr1wf
        (Or.inl hr1prop)
    have huhc : result'.updateHighestConfidence g' = some r1 := hloop1
    have hstep : mergeAllMainLoop [prop] result (g :: t) =
        mergeAllMainLoop [prop] r1 t := by
      calc mergeAllMainLoop [prop] result (g :: t)
          = (match result'.updateHighestConfidence g' with
             | none => Res.err PyErr.keyError
             | some r2 => mergeAllMainLoop [prop] r2 t) := by
            rw [mergeAllMainLoop, happend]
        _ = mergeAllMainLoop [prop] r1 t := by rw [huhc]
    refine ⟨r, by rw [hstep]; exact hloopT, ?_, hrwfT, ?_, ?_⟩
    · left
      rcases hrpropT with h | ⟨hteq, heq⟩
      · rw [h, appendValues_cons hv]
        simp
      · subst hteq
        rw [heq, hr1prop, appendValues_cons hv]
        simp [appendValues]
    · intro k hk hnone
      have hgk : hasKey g.data k = false := hnone g (by simp)
      have hm : k ∉ g'.keys := by
        intro hm
        have hx := hasKey_of_mem_keys hm
        rw [hg'ne k hk, hgk] at hx
        exact Bool.noConfusion hx
      have h1 : lookup r.data k = lookup r1.data k :=
        hpresT k hk (fun h hh => hnone h (by simp [hh]))
      obtain ⟨hd, _⟩ := hr1_out k hm hk
      rw [h1, hd]
    · intro k hk g2 hmem hkey
      rcases List.mem_cons.mp hmem with rfl | hmemT
      · have hm : k ∈ g'.keys := hmemkeys k hk hkey
        have hnoneT : ∀ h ∈ t, hasKey h.data k = false := fun h hh =>
          hpairT.1 h hh k hk hkey
        have h1 : lookup r.data k = lookup r1.data k := hpresT k hk hnoneT
        obtain ⟨hd, _⟩ := hr1_carried k hm
        rw [h1, hd]
      · exact hcarryT k hk g2 hmemT hkey

theorem disjointExceptB_spec {prop : String} {a b : Guess}
    (h : disjointExceptB prop a b = true) :
    ∀ k, k ≠ prop → hasKey a.data k = true → hasKey b.data k = false := by
  intro k hk hka
  obtain ⟨v, hv⟩ := lookup_isSome_of_hasKey hka
  have hall := (List.all_eq_true.mp h) _ (lookup_some_mem hv)
  simp only [Bool.or_eq_true, beq_iff_eq] at hall
  rcases hall with hp | hn
  · exact absurd hp hk
  · simpa using hn

theorem pairwiseDisjointB_spec {prop : String} :
    ∀ {l : List Guess}, pairwiseDisjointB prop l = true →
      List.Pairwise (fun a b => ∀ k, k ≠ prop →
        hasKey a.data k = true → hasKey b.data k = false) l := by
  intro l
  induction l with
  | nil => intro _; exact List.Pairwise.nil
  | cons g t ih =>
    intro h
    rw [pairwiseDisjointB, Bool.and_eq_true] at h
    exact List.Pairwise.cons
      (fun b hb => disjointExceptB_spec ((List.all_eq_true.mp h.1) b hb))
      (ih h.2)

theorem carriesScalarB_spec {gs : List Guess} {prop : String}
    (h : carriesScalarB gs prop = true) :
    ∀ g ∈ gs, ∃ v, g.get? prop = some v ∧ v.isList = false := by
  intro g hg
  have hone := (List.all_eq_true.mp h) g hg
  simp only at hone
  rcases hv : g.get? prop with _ | v
  · rw [hv] at hone
    exact Bool.noConfusion hone
  · rw [hv] at hone
    exact ⟨v, rfl, by simpa using hone⟩

/-- C1 counterexample: when the first guess itself carries a scalar
`episodeNumber`, the very first append step computes
`result.get('episodeNumber', []) + [27]` = `13 + [27]`, and Python's `+`
between an int and a list raises TypeError — so `merge_all` crashes on
exactly the claimed configuration instead of returning a merged guess. -/
theorem merge_all_head_carries_append_counterexample :
    merge_all [Guess.ofDict [("episodeNumber", .int 13)] (mkRat 9 10),
        Guess.ofDict [("episodeNumber", .int 27)] (mkRat 9 10)] ["episodeNumber"] =
      .err .typeError ∧
    merge_all [Guess.ofDict [("episodeNumber", .int 13)] (mkRat 9 10)]
      ["episodeNumber"] = .err .typeError := by
  constructor
  · decide
  · decide

/-- C1 amended: prepend a guess that does not carry the append property
(as the working lists the pipeline feeds to `merge_all` do); then merging
N ≥ 1 guesses that each carry one scalar `episodeNumber` value (plus
pairwise-distinct other properties, all confidences at least the 0.05
pruning threshold) returns a single guess whose `episodeNumber` is the
de-duplicated list of the N values, every other property keeping the
value of the unique guess that carried it. When the first guess carries
a scalar value of the append property, `merge_all` instead raises
TypeError (see the counterexample). -/
theorem merge_all_append_spec (prop : String) (g0 : Guess) (gs : List Guess)
    (hne : gs ≠ [])
    (h0 : g0.hasProp prop = false)
    (hscal : carriesScalarB gs prop = true)
    (hwf : (g0 :: gs).all wfMinB = true)
    (hnd : ∀ g ∈ g0 :: gs, g.keys.Nodup)
    (hdisj : pairwiseDisjointB prop (g0 :: gs) = true) :
    ∃ r, merge_all (g0 :: gs) [prop] = .ok r ∧
      r.get? prop = some (.list ((appendValues gs prop).dedup)) ∧
      (∀ v, v ∈ (appendValues gs prop).dedup ↔ v ∈ appendValues gs prop) ∧
      (appendValues gs prop).dedup.Nodup ∧
      (∀ k, k ≠ prop → ∀ g ∈ g0 :: gs, g.hasProp k = true →
        r.get? k = g.get? k) := by
  have hscal2 := carriesScalarB_spec hscal
  have hcar : ∀ g ∈ gs, ∃ v, lookup g.data prop = some v :=
    fun g hg => (hscal2 g hg).imp (fun v h => h.1)
  have hwf2 : ∀ g ∈ g0 :: gs, wfMinPt g :=
    fun g hg => wfMinB_pt ((List.all_eq_true.mp hwf) g hg)
  have hpairP := pairwiseDisjointB_spec hdisj
  obtain ⟨r1, hloop, hrprop1, hr1wf, hpres, hcarry⟩ :=
    mergeAllMainLoop_spec prop gs g0 []
      hcar
      (fun g hg => hwf2 g (by simp [hg]))
      (fun g hg => hnd g (by simp [hg]))
      (List.pairwise_cons.mp hpairP).2
      (fun g hg k hk hkey => (List.pairwise_cons.mp hpairP).1 g hg k hk hkey)
      (hwf2 g0 (by simp))
      (Or.inr ⟨h0, rfl⟩)
  have hrprop : lookup r1.data prop = some (.list (appendValues gs prop)) := by
    rcases hrprop1 with h | ⟨hnil, _⟩
    · simpa using h
    · exact absurd hnil hne
  have hprune : mergeAllPrune r1 r1.keys = .ok r1 := by
    apply mergeAllPrune_noop
    intro p hp
    obtain ⟨v, hv⟩ := lookup_isSome_of_hasKey (hasKey_of_mem_keys hp)
    obtain ⟨c2, hc2, hge2⟩ := hr1wf p v hv
    exact ⟨c2, hc2, not_lt.mpr hge2⟩
  have hscList : (appendValues gs prop).any Value.isList = false := by
    rw [List.any_eq_false]
    intro v hvmem
    obtain ⟨g, hg, hgv⟩ := List.mem_filterMap.mp hvmem
    obtain ⟨w, hw, hwl⟩ := hscal2 g hg
    rw [hw] at hgv
    have hvw : w = v := by injection hgv
    subst hvw
    simp [hwl]
  have hhasprop : r1.hasProp prop = true := by
    simp [Guess.hasProp, hasKey, hrprop]
  have hdedupval : pySetOfValue (.list (appendValues gs prop)) =
      .ok (appendValues gs prop).dedup := by
    rw [pySetOfValue, hscList]
    rfl
  have hdedup : mergeAllDedup r1 [prop] =
      .ok (r1.setItem prop (.list (appendValues gs prop).dedup)) := by
    calc mergeAllDedup r1 [prop]
        = (match pySetOfValue (Value.list (appendValues gs prop)) with
           | .err e => Res.err e
           | .ok l2 => mergeAllDedup (r1.setItem prop (.list l2)) []) := by
          rw [mergeAllDedup, if_pos hhasprop,
            show r1.get? prop = some (.list (appendValues gs prop)) from hrprop]
      _ = .ok (r1.setItem prop (.list (appendValues gs prop).dedup)) := by
          rw [hdedupval]
          rfl
  have hfinal : merge_all (g0 :: gs) [prop] =
      .ok (r1.setItem prop (.list (appendValues gs prop).dedup)) := by
    calc merge_all (g0 :: gs) [prop]
        = (match mergeAllPrune r1 r1.keys with
           | .err e => Res.err e
           | .ok r2 => mergeAllDedup r2 [prop]) := by
          rw [merge_all, hloop]
      _ = .ok (r1.setItem prop (.list (appendValues gs prop).dedup)) := by
          rw [hprune]
          exact hdedup
  refine ⟨_, hfinal, ?_, fun v => List.mem_dedup, List.nodup_dedup _, ?_⟩
  · show lookup (insertKV r1.data prop _) prop = _
    rw [lookup_insertKV_self]
  · intro k hk g hg hkey
    have h2 : lookup (insertKV r1.data prop
        (Value.list (appendValues gs prop).dedup)) k = lookup r1.data k :=
      lookup_insertKV_ne _ _ _ _ hk
    rcases List.mem_cons.mp hg with rfl | hgt
    · have hnone : ∀ h ∈ gs, hasKey h.data k = false :=
        fun h hh => (List.pairwise_cons.mp hpairP).1 h hh k hk hkey
      show lookup (insertKV r1.data prop _) k = _
      rw [h2, hpres k hk hnone]
      rfl
    · show lookup (insertKV r1.data prop _) k = _
      rw [h2, hcarry k hk g hgt hkey]
      rfl

theorem merge_all_append_spec_witness :
    ∃ r, merge_all [Guess.ofDict [("title", .str "x")] (mkRat 5 10),
        Guess.ofDict [("episodeNumber", .int 13)] (mkRat 8 10),
        Guess.ofDict [("episodeNumber", .int 13), ("season", .int 2)] (mkRat 7 10)]
      ["episodeNumber"] = .ok r ∧
      r.get? "episodeNumber" = some (.list ((appendValues
        [Guess.ofDict [("episodeNumber", .int 13)] (mkRat 8 10),
         Guess.ofDict [("episodeNumber", .int 13), ("season", .int 2)] (mkRat 7 10)]
        "episodeNumber").dedup)) ∧
      (∀ v, v ∈ (appendValues
        [Guess.ofDict [("episodeNumber", .int 13)] (mkRat 8 10),
         Guess.ofDict [("episodeNumber", .int 13), ("season", .int 2)] (mkRat 7 10)]
        "episodeNumber").dedup ↔ v ∈ appendValues
        [Guess.ofDict [("episodeNumber", .int 13)] (mkRat 8 10),
         Guess.ofDict [("episodeNumber", .int 13), ("season", .int 2)] (mkRat 7 10)]
        "episodeNumber") ∧
      (appendValues
        [Guess.ofDict [("episodeNumber", .int 13)] (mkRat 8 10),
         Guess.ofDict [("episodeNumber", .int 13), ("season", .int 2)] (mkRat 7 10)]
        "episodeNumber").dedup.Nodup ∧
      (∀ k, k ≠ "episodeNumber" →
        ∀ g ∈ [Guess.ofDict [("title", .str "x")] (mkRat 5 10),
          Guess.ofDict [("episodeNumber", .int 13)] (mkRat 8 10),
          Guess.ofDict [("episodeNumber", .int 13), ("season", .int 2)] (mkRat 7 10)],
          g.hasProp k = true → r.get? k = g.get? k) :=
  merge_all_append_spec "episodeNumber"
    (Guess.ofDict [("title", .str "x")] (mkRat 5 10))
    [Guess.ofDict [("episodeNumber", .int 13)] (mkRat 8 10),
     Guess.ofDict [("episodeNumber", .int 13), ("season", .int 2)] (mkRat 7 10)]
    (by decide) (by decide) (by decide) (by decide) (by decide) (by decide)
